import Mathlib

/-!
Verification of the Sonny orchestration core (plan/action validator, loop
guard, state manager, planner retry loop, serve-and-fix loop) against its
natural-language specification.  Python sources are shallowly embedded:
strings are Lean strings restricted to the ASCII fragment the checks use,
dict-shaped JSON values become small inductive types, raising functions
return `Except String`.
-/

set_option maxHeartbeats 1600000

namespace Sonny

instance {ε α : Type} [DecidableEq ε] [DecidableEq α] : DecidableEq (Except ε α) :=
  fun a b =>
    match a, b with
    | .ok x, .ok y =>
      if h : x = y then .isTrue (by rw [h]) else .isFalse (by intro hc; cases hc; exact h rfl)
    | .error x, .error y =>
      if h : x = y then .isTrue (by rw [h]) else .isFalse (by intro hc; cases hc; exact h rfl)
    | .ok _, .error _ => .isFalse (by intro hc; cases hc)
    | .error _, .ok _ => .isFalse (by intro hc; cases hc)

/-! ## Python string primitives (ASCII fragment) -/

/-- Python whitespace class `\s` restricted to ASCII. -/
def isPyWs (c : Char) : Bool :=
  c = ' ' || c = '\t' || c = '\n' || c = '\r' || c = '\x0b' || c = '\x0c'

/-- Python `str.lower` on the ASCII fragment. -/
def pyLower (s : String) : String :=
  ⟨s.data.map Char.toLower⟩

/-- Python `str.strip` (ASCII whitespace). -/
def pyStripL (cs : List Char) : List Char :=
  ((cs.dropWhile isPyWs).reverse.dropWhile isPyWs).reverse

def pyStrip (s : String) : String := ⟨pyStripL s.data⟩

/-- `needle` occurs as a prefix of `hay`. -/
def prefB : List Char → List Char → Bool
  | [], _ => true
  | _ :: _, [] => false
  | a :: as, b :: bs => a = b && prefB as bs

/-- Python `needle in hay` on char lists. -/
def subB (needle : List Char) : List Char → Bool
  | [] => prefB needle []
  | c :: t => prefB needle (c :: t) || subB needle t

/-- Python `needle in hay` on strings. -/
def pyIn (needle hay : String) : Bool := subB needle.data hay.data

theorem dropWhile_len_le {α : Type} (p : α → Bool) (l : List α) :
    (l.dropWhile p).length ≤ l.length := by
  induction l with
  | nil => simp
  | cons a t ih =>
    by_cases h : p a
    · simpa [List.dropWhile, h] using Nat.le_succ_of_le ih
    · simp [List.dropWhile, h]

/-- State machine for `re.sub(r"\s+", " ", s)`; the flag records whether the
previous character was whitespace (already emitted as the single space). -/
def collapseGo : Bool → List Char → List Char
  | _, [] => []
  | prevWs, c :: t =>
    if isPyWs c then
      (if prevWs then collapseGo true t else ' ' :: collapseGo true t)
    else c :: collapseGo false t

/-- `re.sub(r"\s+", " ", s)`: collapse each whitespace run to one space. -/
def collapseWsL (l : List Char) : List Char := collapseGo false l

/-- Python `s.split(sep)` for a one-character separator. -/
def splitOnChar (sep : Char) : List Char → List (List Char)
  | [] => [[]]
  | c :: t =>
    match splitOnChar sep t with
    | [] => [[c]]
    | h :: rest => if c = sep then [] :: h :: rest else (c :: h) :: rest

/-- Python `sep.join(parts)` for a one-character separator. -/
def joinWithChar (sep : Char) : List (List Char) → List Char
  | [] => []
  | [x] => x
  | x :: y :: rest => x ++ sep :: joinWithChar sep (y :: rest)

def collapseWs (s : String) : String := ⟨collapseWsL s.data⟩

theorem prefB_iff (n h : List Char) : prefB n h = true ↔ ∃ t, h = n ++ t := by
  induction n generalizing h with
  | nil => simp [prefB]
  | cons a as ih =>
    cases h with
    | nil => simp [prefB]
    | cons b bs =>
      simp only [prefB, Bool.and_eq_true, decide_eq_true_eq, ih]
      constructor
      · rintro ⟨rfl, t, rfl⟩; exact ⟨t, rfl⟩
      · rintro ⟨t, heq⟩
        cases heq
        exact ⟨rfl, t, rfl⟩

theorem subB_iff (n h : List Char) : subB n h = true ↔ ∃ p t, h = p ++ n ++ t := by
  induction h with
  | nil =>
    simp only [subB, prefB_iff]
    constructor
    · rintro ⟨t, ht⟩
      exact ⟨[], t, by simpa using ht⟩
    · rintro ⟨p, t, ht⟩
      have hn : n.length = 0 := by
        have := congrArg List.length ht
        simp at this
        omega
      exact ⟨[], by simp [List.eq_nil_of_length_eq_zero hn]⟩
  | cons c t ih =>
    simp only [subB, Bool.or_eq_true, prefB_iff, ih]
    constructor
    · rintro (⟨u, hu⟩ | ⟨p, u, hu⟩)
      · exact ⟨[], u, by simpa using hu⟩
      · exact ⟨c :: p, u, by simp [hu]⟩
    · rintro ⟨p, u, hu⟩
      cases p with
      | nil => exact Or.inl ⟨u, by simpa using hu⟩
      | cons x xs =>
        right
        refine ⟨xs, u, ?_⟩
        have : c = x ∧ t = xs ++ n ++ u := by
          have := hu
          simp only [List.cons_append, List.cons.injEq] at this
          exact this
        simp [this.2]

/-! ## A small verified pattern matcher

The validator screens commands with `re.search` over a fixed list of
patterns.  Each pattern only uses literals, single-character classes and
starred classes, so we model patterns as token lists, give them a
declarative matching semantics `TokMatchP`, and verify an executable
backtracking search against it. -/

inductive Tok where
  | lit1 (c : Char)
  | one (p : Char → Bool)
  | cls1 (p : Char → Bool)
  | cls0 (p : Char → Bool)

/-- Declarative full-match semantics of a token list. -/
def TokMatchP : List Tok → List Char → Prop
  | [], s => s = []
  | .lit1 c :: ts, s => ∃ rest, s = c :: rest ∧ TokMatchP ts rest
  | .one p :: ts, s => ∃ c rest, s = c :: rest ∧ p c = true ∧ TokMatchP ts rest
  | .cls1 p :: ts, s =>
      ∃ w rest, s = w ++ rest ∧ w ≠ [] ∧ (∀ c ∈ w, p c = true) ∧ TokMatchP ts rest
  | .cls0 p :: ts, s =>
      ∃ w rest, s = w ++ rest ∧ (∀ c ∈ w, p c = true) ∧ TokMatchP ts rest

/-- Some prefix of `s` matches the token list. -/
def TokPrefixP (ts : List Tok) (s : List Char) : Prop :=
  ∃ mid post, s = mid ++ post ∧ TokMatchP ts mid

/-- `re.search` semantics: some substring of `s` matches the token list. -/
def OccursP (ts : List Tok) (s : List Char) : Prop :=
  ∃ pre mid post, s = pre ++ mid ++ post ∧ TokMatchP ts mid

/-- Executable prefix matcher (with backtracking for starred classes).
Fuel-based so that it evaluates by kernel reduction; `tokPrefixB` supplies
fuel that the correctness proof shows is always sufficient. -/
def tokPrefixF : Nat → List Tok → List Char → Bool
  | 0, _, _ => false
  | _ + 1, [], _ => true
  | _ + 1, .lit1 _ :: _, [] => false
  | fuel + 1, .lit1 c :: ts, b :: bs => c = b && tokPrefixF fuel ts bs
  | _ + 1, .one _ :: _, [] => false
  | fuel + 1, .one p :: ts, b :: bs => p b && tokPrefixF fuel ts bs
  | _ + 1, .cls1 _ :: _, [] => false
  | fuel + 1, .cls1 p :: ts, b :: bs => p b && tokPrefixF fuel (.cls0 p :: ts) bs
  | fuel + 1, .cls0 _ :: ts, [] => tokPrefixF fuel ts []
  | fuel + 1, .cls0 p :: ts, b :: bs =>
      tokPrefixF fuel ts (b :: bs) || (p b && tokPrefixF fuel (.cls0 p :: ts) bs)

def tokPrefixB (ts : List Tok) (s : List Char) : Bool :=
  tokPrefixF (s.length + ts.length + 1) ts s

/-- Executable search: try every suffix. -/
def tokSearchB (ts : List Tok) : List Char → Bool
  | [] => tokPrefixB ts []
  | c :: t => tokPrefixB ts (c :: t) || tokSearchB ts t

theorem tokPrefixF_iff : ∀ fuel ts s, s.length + ts.length < fuel →
    (tokPrefixF fuel ts s = true ↔ TokPrefixP ts s) := by
  intro fuel
  induction fuel with
  | zero => intro ts s h; omega
  | succ n ih =>
    intro ts s h
    match ts, s with
    | [], s =>
      simp only [tokPrefixF, TokPrefixP, TokMatchP, true_iff]
      exact ⟨[], s, by simp⟩
    | .lit1 c :: ts, [] =>
      simp only [tokPrefixF, TokPrefixP, TokMatchP]
      constructor
      · intro hx; simp at hx
      · rintro ⟨mid, post, hs, rest, rfl, -⟩
        simp at hs
    | .lit1 c :: ts, b :: bs =>
      have ihx := ih ts bs (by simp at h; omega)
      simp only [tokPrefixF, Bool.and_eq_true, decide_eq_true_eq, ihx,
        TokPrefixP, TokMatchP]
      constructor
      · rintro ⟨rfl, mid, post, rfl, hm⟩
        exact ⟨c :: mid, post, rfl, mid, rfl, hm⟩
      · rintro ⟨mid, post, hs, rest, rfl, hm⟩
        obtain ⟨h1, h2⟩ := (by simpa using hs : b = c ∧ bs = rest ++ post)
        exact ⟨h1.symm, rest, post, h2, hm⟩
    | .one p :: ts, [] =>
      simp only [tokPrefixF, TokPrefixP, TokMatchP]
      constructor
      · intro hx; simp at hx
      · rintro ⟨mid, post, hs, c, rest, rfl, -, -⟩
        simp at hs
    | .one p :: ts, b :: bs =>
      have ihx := ih ts bs (by simp at h; omega)
      simp only [tokPrefixF, Bool.and_eq_true, ihx, TokPrefixP, TokMatchP]
      constructor
      · rintro ⟨hp, mid, post, rfl, hm⟩
        exact ⟨b :: mid, post, rfl, b, mid, rfl, hp, hm⟩
      · rintro ⟨mid, post, hs, c, rest, rfl, hp, hm⟩
        obtain ⟨h1, h2⟩ := (by simpa using hs : b = c ∧ bs = rest ++ post)
        subst h1
        exact ⟨hp, rest, post, h2, hm⟩
    | .cls1 p :: ts, [] =>
      simp only [tokPrefixF, TokPrefixP, TokMatchP]
      constructor
      · intro hx; simp at hx
      · rintro ⟨mid, post, hs, w, rest, rfl, hw, -, -⟩
        have hlen := congrArg List.length hs
        simp at hlen
        exact absurd (List.eq_nil_of_length_eq_zero (by omega)) hw
    | .cls1 p :: ts, b :: bs =>
      have ihx := ih (.cls0 p :: ts) bs (by simp at h ⊢; omega)
      simp only [tokPrefixF, Bool.and_eq_true, ihx, TokPrefixP, TokMatchP]
      constructor
      · rintro ⟨hp, mid, post, rfl, w, rest, rfl, hw, hm⟩
        refine ⟨(b :: w) ++ rest, post, by simp, b :: w, rest, rfl, by simp, ?_, hm⟩
        intro c hc
        rcases List.mem_cons.mp hc with rfl | hc2
        · exact hp
        · exact hw c hc2
      · rintro ⟨mid, post, hs, w, rest, rfl, hne, hw, hm⟩
        rcases w with _ | ⟨wc, w'⟩
        · exact absurd rfl hne
        · obtain ⟨h1, h2⟩ := (by simpa using hs : b = wc ∧ bs = w' ++ rest ++ post)
          subst h1
          refine ⟨hw b (by simp), w' ++ rest, post, by simpa using h2,
            w', rest, rfl, ?_, hm⟩
          exact fun c hc => hw c (by simp [hc])
    | .cls0 p :: ts, [] =>
      have ihx := ih ts [] (by simp at h ⊢; omega)
      simp only [tokPrefixF, ihx, TokPrefixP, TokMatchP]
      constructor
      · rintro ⟨mid, post, hs, hm⟩
        exact ⟨mid, post, hs, [], mid, by simp, by simp, hm⟩
      · rintro ⟨mid, post, hs, w, rest, rfl, hw, hm⟩
        have hlen := congrArg List.length hs
        simp at hlen
        have hw0 : w = [] := List.eq_nil_of_length_eq_zero (by omega)
        subst hw0
        exact ⟨rest, post, by simpa using hs, hm⟩
    | .cls0 p :: ts, b :: bs =>
      have ih1 := ih ts (b :: bs) (by simp at h ⊢; omega)
      have ih2 := ih (.cls0 p :: ts) bs (by simp at h ⊢; omega)
      simp only [tokPrefixF, Bool.or_eq_true, Bool.and_eq_true, ih1, ih2,
        TokPrefixP, TokMatchP]
      constructor
      · rintro (⟨mid, post, hs, hm⟩ | ⟨hp, mid, post, hs, w, rest, rfl, hw, hm⟩)
        · exact ⟨mid, post, hs, [], mid, by simp, by simp, hm⟩
        · refine ⟨(b :: w) ++ rest, post, by simp [hs], b :: w, rest, rfl, ?_, hm⟩
          intro c hc
          rcases List.mem_cons.mp hc with rfl | hc2
          · exact hp
          · exact hw c hc2
      · rintro ⟨mid, post, hs, w, rest, rfl, hw, hm⟩
        rcases w with _ | ⟨wc, w'⟩
        · exact Or.inl ⟨rest, post, by simpa using hs, hm⟩
        · obtain ⟨h1, h2⟩ := (by simpa using hs : b = wc ∧ bs = w' ++ rest ++ post)
          subst h1
          refine Or.inr ⟨hw b (by simp), w' ++ rest, post, by simpa using h2,
            w', rest, rfl, fun c hc => hw c (by simp [hc]), hm⟩

theorem tokPrefixB_iff (ts : List Tok) (s : List Char) :
    tokPrefixB ts s = true ↔ TokPrefixP ts s :=
  tokPrefixF_iff (s.length + ts.length + 1) ts s (by omega)

theorem tokSearchB_iff (ts : List Tok) (s : List Char) :
    tokSearchB ts s = true ↔ OccursP ts s := by
  induction s with
  | nil =>
    simp only [tokSearchB, tokPrefixB_iff, TokPrefixP, OccursP]
    constructor
    · rintro ⟨mid, post, hs, hm⟩
      exact ⟨[], mid, post, by simpa using hs, hm⟩
    · rintro ⟨pre, mid, post, hs, hm⟩
      have hlen := congrArg List.length hs
      simp at hlen
      have hpre : pre = [] := List.eq_nil_of_length_eq_zero (by omega)
      have hpost : post = [] := List.eq_nil_of_length_eq_zero (by omega)
      subst hpre; subst hpost
      exact ⟨mid, [], by simpa using hs, hm⟩
  | cons c t ih =>
    simp only [tokSearchB, Bool.or_eq_true, tokPrefixB_iff, TokPrefixP, ih, OccursP]
    constructor
    · rintro (⟨mid, post, hs, hm⟩ | ⟨pre, mid, post, hs, hm⟩)
      · exact ⟨[], mid, post, by simpa using hs, hm⟩
      · exact ⟨c :: pre, mid, post, by simp [hs], hm⟩
    · rintro ⟨pre, mid, post, hs, hm⟩
      rcases pre with _ | ⟨pc, pre'⟩
      · exact Or.inl ⟨mid, post, by simpa using hs, hm⟩
      · obtain ⟨-, h2⟩ := (by simpa using hs : c = pc ∧ t = pre' ++ (mid ++ post))
        exact Or.inr ⟨pre', mid, post, by simpa using h2, hm⟩

/-! ### Word-boundary matcher for the pattern with two boundary anchors -/

/-- Python `\w` (ASCII fragment). -/
def isWordChar (c : Char) : Bool :=
  ('a' ≤ c && c ≤ 'z') || ('A' ≤ c && c ≤ 'Z') || ('0' ≤ c && c ≤ '9') || c = '_'

/-- Match word `w` at the current position, with word boundaries on both
sides; `prev` is the character immediately before the position. -/
def boundaryHereB (w s : List Char) (prev : Option Char) : Bool :=
  prefB w s &&
    (match prev with | none => true | some c => !isWordChar c) &&
    (match s.drop w.length with | [] => true | c :: _ => !isWordChar c)

def boundarySearchB (w : List Char) (prev : Option Char) : List Char → Bool
  | [] => boundaryHereB w [] prev
  | c :: t => boundaryHereB w (c :: t) prev || boundarySearchB w (some c) t

/-- A left context is boundary-ok if it is empty or ends in a non-word char. -/
def BoundL (prev : Option Char) (pre : List Char) : Prop :=
  (pre = [] ∧ (prev = none ∨ ∃ c, prev = some c ∧ isWordChar c = false)) ∨
    (∃ c p, pre = p ++ [c] ∧ isWordChar c = false)

/-- A right context is boundary-ok if it is empty or starts with a non-word char. -/
def BoundR (post : List Char) : Prop :=
  post = [] ∨ ∃ c p, post = c :: p ∧ isWordChar c = false

/-- `re.search(r"\b<w>\b", s)` semantics. -/
def BoundaryOccursP (w s : List Char) : Prop :=
  ∃ pre post, s = pre ++ w ++ post ∧ BoundL none pre ∧ BoundR post

theorem boundaryHereB_iff (w s : List Char) (prev : Option Char) :
    boundaryHereB w s prev = true ↔
      ∃ post, s = w ++ post ∧
        (prev = none ∨ ∃ c, prev = some c ∧ isWordChar c = false) ∧ BoundR post := by
  simp only [boundaryHereB, Bool.and_eq_true, prefB_iff]
  constructor
  · rintro ⟨⟨⟨post, rfl⟩, hprev⟩, hnext⟩
    refine ⟨post, rfl, ?_, ?_⟩
    · rcases prev with _ | c
      · exact Or.inl rfl
      · exact Or.inr ⟨c, rfl, by simpa using hprev⟩
    · have hd : (w ++ post).drop w.length = post := by simp
      rw [hd] at hnext
      rcases post with _ | ⟨c, p⟩
      · exact Or.inl rfl
      · exact Or.inr ⟨c, p, rfl, by simpa using hnext⟩
  · rintro ⟨post, rfl, hprev, hnext⟩
    refine ⟨⟨⟨post, rfl⟩, ?_⟩, ?_⟩
    · rcases prev with _ | c
      · simp
      · rcases hprev with h | ⟨c', hc', hw⟩
        · simp at h
        · simp only [Option.some.injEq] at hc'
          subst hc'
          simpa using hw
    · have hd : (w ++ post).drop w.length = post := by simp
      rw [hd]
      rcases post with _ | ⟨c, p⟩
      · simp
      · rcases hnext with h | ⟨c', p', hc', hw⟩
        · simp at h
        · simp only [List.cons.injEq] at hc'
          rcases hc' with ⟨rfl, rfl⟩
          simpa using hw

theorem boundarySearchB_iff (w : List Char) (prev : Option Char) (s : List Char) :
    boundarySearchB w prev s = true ↔
      ∃ pre post, s = pre ++ w ++ post ∧ BoundL prev pre ∧ BoundR post := by
  induction s generalizing prev with
  | nil =>
    simp only [boundarySearchB, boundaryHereB_iff]
    constructor
    · rintro ⟨post, h, hp, hr⟩
      exact ⟨[], post, by simpa using h, Or.inl ⟨rfl, hp⟩, hr⟩
    · rintro ⟨pre, post, h, hl, hr⟩
      have hpre : pre = [] := by
        have := congrArg List.length h
        simp at this
        exact List.eq_nil_of_length_eq_zero (by omega)
      subst hpre
      rcases hl with ⟨-, hp⟩ | ⟨c, p, hc, -⟩
      · exact ⟨post, by simpa using h, hp, hr⟩
      · simp at hc
  | cons c t ih =>
    simp only [boundarySearchB, Bool.or_eq_true, boundaryHereB_iff, ih]
    constructor
    · rintro (⟨post, h, hp, hr⟩ | ⟨pre, post, h, hl, hr⟩)
      · exact ⟨[], post, by simpa using h, Or.inl ⟨rfl, hp⟩, hr⟩
      · refine ⟨c :: pre, post, by simp [h], ?_, hr⟩
        rcases hl with ⟨rfl, hp⟩ | ⟨d, p, hd, hw⟩
        · rcases hp with h0 | ⟨d, hd, hw⟩
          · simp at h0
          · simp only [Option.some.injEq] at hd
            subst hd
            exact Or.inr ⟨c, [], by simp, hw⟩
        · exact Or.inr ⟨d, c :: p, by simp [hd], hw⟩
    · rintro ⟨pre, post, h, hl, hr⟩
      rcases pre with _ | ⟨pc, pre'⟩
      · rcases hl with ⟨-, hp⟩ | ⟨d, p, hd, -⟩
        · exact Or.inl ⟨post, by simpa using h, hp, hr⟩
        · simp at hd
      · obtain ⟨h1, h2⟩ := (by simpa using h : c = pc ∧ t = pre' ++ (w ++ post))
        subst h1
        refine Or.inr ⟨pre', post, by simpa using h2, ?_, hr⟩
        rcases hl with ⟨h0, -⟩ | ⟨d, p, hd, hw⟩
        · simp at h0
        · rcases p with _ | ⟨qc, q⟩
          · obtain ⟨h4, h5⟩ := (by simpa using hd : c = d ∧ pre' = [])
            subst h5
            exact Or.inl ⟨rfl, Or.inr ⟨c, rfl, by rw [h4]; exact hw⟩⟩
          · obtain ⟨-, h6⟩ := (by simpa using hd : c = qc ∧ pre' = q ++ [d])
            exact Or.inr ⟨d, q, h6, hw⟩

/-! ## Validator data model (core/validator.py)

Action dicts are modelled with one field per key the validator reads;
`none` is an absent key, `PVal.other` is a present non-string value (every
`isinstance(..., str)` check in the source rejects those uniformly). -/

inductive PVal where
  | str (s : String)
  | other
deriving DecidableEq

def pvStr : PVal → String
  | .str s => s
  | .other => ""

structure PyAction where
  type : Option PVal := none
  command : Option PVal := none
  path : Option PVal := none
  content : Option PVal := none
deriving DecidableEq

/-- Element of the `actions` list (`isinstance(action, dict)` check). -/
inductive PyItem where
  | dict (a : PyAction)
  | notDict
deriving DecidableEq

/-- The value found at key `"actions"`. -/
inductive PyActionsVal where
  | list (l : List PyItem)
  | notList
deriving DecidableEq

structure ActionsPayload where
  actions : Option PyActionsVal
deriving DecidableEq

def ALLOWED_ACTION_TYPES : List String :=
  ["command", "file_write", "file_modify", "llm_call"]

def PROTECTED_FILES : List String :=
  ["angular.json", "package.json", "main.ts", "index.html"]

def PLACEHOLDER_HINTS : List String :=
  ["este archivo", "se encargará", "contendrá", "placeholder", "todo:",
   "por implementar", "pendiente"]

/-! ### `DANGEROUS_COMMAND_PATTERNS`, one token list per regex -/

def wsT : Tok := .cls1 isPyWs

def lits (s : String) : List Tok := s.data.map Tok.lit1

/-- `rm\s+-rf` -/
def patRmRf : List Tok := lits "rm" ++ [wsT] ++ lits "-rf"

/-- `dd\s+if=` -/
def patDdIf : List Tok := lits "dd" ++ [wsT] ++ lits "if="

/-- `mkfs` -/
def patMkfs : List Tok := lits "mkfs"

/-- `shutdown` -/
def patShutdown : List Tok := lits "shutdown"

/-- `del\s+/f\s+/s\s+/q` -/
def patDel : List Tok :=
  lits "del" ++ [wsT] ++ lits "/f" ++ [wsT] ++ lits "/s" ++ [wsT] ++ lits "/q"

/-- `curl\s+[^\n|]*\|\s*sh` -/
def patCurl : List Tok :=
  lits "curl" ++ [wsT, .cls0 (fun c => !(c = '\n' || c = '|'))] ++ lits "|" ++
    [.cls0 isPyWs] ++ lits "sh"

/-- `any(re.search(p, s) for p in DANGEROUS_COMMAND_PATTERNS)`; the fifth
pattern `\bformat\b` carries word boundaries and uses the boundary matcher. -/
def dangerousB (s : String) : Bool :=
  tokSearchB patRmRf s.data || tokSearchB patDdIf s.data ||
    tokSearchB patMkfs s.data || tokSearchB patShutdown s.data ||
    boundarySearchB "format".data none s.data ||
    tokSearchB patDel s.data || tokSearchB patCurl s.data

/-- `_validate_command` (validator.py:165-172); the argument is the value of
`action.get("command", "")`. -/
def validateCommand (command : PVal) : Except String Unit :=
  match command with
  | .other => .error "Accion command sin campo command valido."
  | .str s =>
    if s = "" then .error "Accion command sin campo command valido."
    else if dangerousB (pyLower s) then .error "Comando bloqueado por seguridad."
    else .ok ()

/-! ### `_validate_path` -/

def replBackslash (s : String) : String :=
  ⟨s.data.map (fun c => if c = '\\' then '/' else c)⟩

def isAsciiLetter (c : Char) : Bool :=
  ('a' ≤ c && c ≤ 'z') || ('A' ≤ c && c ≤ 'Z')

/-- `cleaned.startswith("/") or re.match(r"^[a-zA-Z]:/", cleaned)`. -/
def absShape (s : String) : Bool :=
  match s.data with
  | [] => false
  | c :: rest =>
    c = '/' || (isAsciiLetter c &&
      (match rest with | ':' :: '/' :: _ => true | _ => false))

/-- `_validate_path` (validator.py:175-188). -/
def validatePath (path : PVal) : Except String Unit :=
  match path with
  | .other => .error "Accion de archivo sin path valido."
  | .str p =>
    if p = "" then .error "Accion de archivo sin path valido."
    else
      let cleaned := replBackslash p
      let segs := splitOnChar '/' cleaned.data
      if absShape cleaned then .error "Ruta absoluta no permitida."
      else if "..".data ∈ segs then .error "Path traversal bloqueado."
      else
        let normalized := pyLower ⟨segs.getLastD []⟩
        if !(pyIn "/" cleaned) && normalized ∈ PROTECTED_FILES then
          .error "Archivo protegido bloqueado."
        else .ok ()

/-! ### `_validate_file_content` -/

/-- Drop everything up to and including the first occurrence of `pat`,
returning the suffix after it (or `none` when `pat` does not occur). -/
def dropThroughTok (pat : List Char) : List Char → Option (List Char)
  | [] => none
  | c :: t => if prefB pat (c :: t) then some ((c :: t).drop pat.length)
              else dropThroughTok pat t

theorem dropThroughTok_len (pat : List Char) (hp : pat ≠ []) :
    ∀ l r, dropThroughTok pat l = some r → r.length < l.length := by
  intro l
  induction l with
  | nil => intro r h; simp [dropThroughTok] at h
  | cons c t ih =>
    intro r h
    rw [dropThroughTok] at h
    by_cases hc : prefB pat (c :: t) = true
    · rw [if_pos hc, Option.some.injEq] at h
      subst h
      have hlen : 0 < pat.length := List.length_pos.mpr hp
      simp only [List.length_drop]
      simp only [List.length_cons]
      omega
    · rw [if_neg hc] at h
      exact Nat.lt_succ_of_lt (ih r h)

/-- Scan forward to just after the next `*/`. -/
def findCloseBC (l : List Char) : Option (List Char) :=
  dropThroughTok "*/".data l

theorem findCloseBC_len (l r : List Char) (h : findCloseBC l = some r) :
    r.length < l.length :=
  dropThroughTok_len "*/".data (by simp) l r h

/-- Fuel-based worker for the block-comment stripper. -/
def stripBlockF : Nat → List Char → List Char
  | 0, l => l
  | _ + 1, [] => []
  | fuel + 1, '/' :: '*' :: rest =>
    match findCloseBC rest with
    | some after => stripBlockF fuel after
    | none => '/' :: '*' :: rest
  | fuel + 1, c :: t => c :: stripBlockF fuel t

/-- `re.sub(r"/\*.*?\*/", "", s, flags=re.DOTALL)`: drop each `/*`-to-first-`*/`
span; an unterminated `/*` is left in place (the regex does not match it).
The fuel `l.length + 1` is sufficient because `findCloseBC` strictly shrinks
the list. -/
def stripBlockL (l : List Char) : List Char := stripBlockF (l.length + 1) l

/-- Scan forward to just after the next `-->`. -/
def findCloseHC (l : List Char) : Option (List Char) :=
  dropThroughTok "-->".data l

theorem findCloseHC_len (l r : List Char) (h : findCloseHC l = some r) :
    r.length < l.length :=
  dropThroughTok_len "-->".data (by simp) l r h

/-- Fuel-based worker for the html-comment stripper. -/
def stripHtmlCF : Nat → List Char → List Char
  | 0, l => l
  | _ + 1, [] => []
  | fuel + 1, '<' :: '!' :: '-' :: '-' :: rest =>
    match findCloseHC rest with
    | some after => stripHtmlCF fuel after
    | none => '<' :: '!' :: '-' :: '-' :: rest
  | fuel + 1, c :: t => c :: stripHtmlCF fuel t

/-- `re.sub(r"<!--.*?-->", "", s, flags=re.DOTALL)`. -/
def stripHtmlCL (l : List Char) : List Char := stripHtmlCF (l.length + 1) l

/-- `re.sub(r"^\s*//.*$", "", s, flags=re.MULTILINE)`, modelled per line:
a line whose leading whitespace is followed by `//` becomes empty.  (The
Python `\s*` may additionally swallow whitespace-only lines right before a
comment line; that changes only whitespace, which no later check reads.) -/
def stripLineComments (s : String) : String :=
  ⟨joinWithChar '\n'
    ((splitOnChar '\n' s.data).map
      (fun line => if prefB "//".data (line.dropWhile isPyWs) then [] else line))⟩

def CODE_TOKENS : List String :=
  ["import ", "export ", "@component", "class ", "function ", "const ", "let ", "=>"]

/-- `<\s*[a-zA-Z][^>]*>` -/
def htmlTagToks : List Tok :=
  [.lit1 '<', .cls0 isPyWs, .one isAsciiLetter, .cls0 (fun c => !(c = '>')), .lit1 '>']

/-- `[^{}]+\{[^{}]+\}` -/
def cssRuleToks : List Tok :=
  [.cls1 (fun c => !(c = '{' || c = '}')), .lit1 '{',
   .cls1 (fun c => !(c = '{' || c = '}')), .lit1 '}']

/-- `path.lower().split('.')[-1] if '.' in path else ''` -/
def extOf (p : String) : String :=
  if pyIn "." p then ⟨(splitOnChar '.' (pyLower p).data).getLastD []⟩ else ""

/-- Comment-stripped body used for the ts/js family check. -/
def tsBody (stripped : String) : String :=
  pyStrip (stripLineComments ⟨stripBlockL stripped.data⟩)

/-- Comment-stripped body used for the html family check. -/
def htmlBody (stripped : String) : String :=
  pyStrip ⟨stripHtmlCL stripped.data⟩

/-- Comment-stripped body used for the css family check. -/
def cssBody (stripped : String) : String :=
  pyStrip ⟨stripBlockL stripped.data⟩

/-- `_validate_file_content` (validator.py:191-223); arguments are the values
of `action.get("path", "")` and `action.get("content", "")`. -/
def validateFileContent (pathV contentV : PVal) : Except String Unit :=
  match contentV with
  | .other => .error "Contenido invalido: debe ser string."
  | .str content =>
    let lowered := pyLower content
    if PLACEHOLDER_HINTS.any (fun h => pyIn h lowered) then
      .error "Contenido placeholder detectado."
    else
      let ext := extOf (pvStr pathV)
      let stripped := pyStrip content
      if stripped = "" then .error "Contenido vacio detectado."
      else do
        if ext ∈ (["ts", "tsx", "js", "jsx"] : List String) then
          let body := tsBody stripped
          if body = "" then
            throw "Contenido no sustantivo (solo comentarios)."
          else if !(CODE_TOKENS.any (fun t => pyIn t (pyLower body))) then
            throw "Contenido TypeScript/JavaScript sospechoso."
        if ext ∈ (["html", "htm"] : List String) then
          let body := htmlBody stripped
          if body = "" then
            throw "Contenido no sustantivo (solo comentarios)."
          else if !(tokSearchB htmlTagToks body.data) then
            throw "HTML invalido o vacio."
        if ext ∈ (["scss", "css"] : List String) then
          if !(tokSearchB cssRuleToks (cssBody stripped).data) then
            throw "CSS/SCSS sin reglas validas."

/-- Body of the `for action in actions` loop for one element. -/
def validateActionItem (it : PyItem) : Except String Unit :=
  match it with
  | .notDict => .error "Cada accion debe ser un objeto JSON."
  | .dict a =>
    match a.type with
    | some (.str t) =>
      if t ∉ ALLOWED_ACTION_TYPES then .error "Tipo de accion no permitido."
      else do
        if t = "command" then validateCommand (a.command.getD (.str ""))
        if t = "file_write" || t = "file_modify" then do
          validatePath (a.path.getD (.str ""))
          validateFileContent (a.path.getD (.str "")) (a.content.getD (.str ""))
    | _ => .error "Tipo de accion no permitido."

def validateActionsList : List PyItem → Except String Unit
  | [] => .ok ()
  | it :: rest => do
    validateActionItem it
    validateActionsList rest

/-- `validate_actions` (validator.py:142-162). -/
def validateActions (payload : ActionsPayload) : Except String Unit :=
  match payload.actions with
  | some (.list l) =>
    if l = [] then .error "La fase no contiene acciones validas."
    else validateActionsList l
  | _ => .error "La fase no contiene acciones validas."

/-! ## Plan validator (validate_plan, validator.py:41-139)

A phase dict is modelled by the three keys the source reads.  Values of
`name` are modelled as strings (`none` = key absent); `description` is only
tested for presence; `depends_on` distinguishes a falsy value (None etc.,
coerced to `[]` by `phase.get("depends_on") or []`), a list of strings, and
a truthy non-list (rejected by the `isinstance(deps, list)` check). -/

inductive DepsVal where
  | dnull
  | dlist (deps : List String)
  | dother
deriving DecidableEq

structure PyPhase where
  name : Option String := none
  description : Bool := false
  depends_on : Option DepsVal := none
deriving DecidableEq

inductive PhaseItem where
  | dict (p : PyPhase)
  | notDict
deriving DecidableEq

inductive PhasesVal where
  | list (l : List PhaseItem)
  | notList
deriving DecidableEq

structure Plan where
  phases : Option PhasesVal
deriving DecidableEq

/-- `_normalize_phase_ref` (validator.py:92-93). -/
def normalizePhaseRef (value : String) : String :=
  pyLower (collapseWs (pyStrip value))

def isDigitC (c : Char) : Bool := '0' ≤ c && c ≤ '9'

/-- Try one alternative of `^(fase|phase)\s+(\d+)(?=\s*[:\-–—]|\s*$)` on the
lowercased, whitespace-collapsed name. -/
def shortRefWord (w : List Char) (low : List Char) : Option String :=
  if prefB w low then
    match low.drop w.length with
    | ' ' :: rest1 =>
      let digits := rest1.takeWhile isDigitC
      let rest2 := rest1.dropWhile isDigitC
      if digits = [] then none
      else
        let rest3 := rest2.dropWhile isPyWs
        let lookaheadOk :=
          match rest3 with
          | [] => rest2.all isPyWs
          | c :: _ => c = ':' || c = '-' || c = '–' || c = '—'
        if lookaheadOk then some ⟨w ++ ' ' :: digits⟩ else none
    | _ => none
  else none

/-- `_extract_phase_short_ref` (validator.py:96-103).  Matching is done on
the lowercased collapsed name; the returned text is lowercased by the source
(`casefold`), so this is equivalent. -/
def extractPhaseShortRef (name : String) : Option String :=
  let low := (collapseWsL (pyStripL name.data)).map Char.toLower
  match shortRefWord "fase".data low with
  | some r => some r
  | none => shortRefWord "phase".data low

/-- Alias-map lookup; the Python dict keeps the last insertion for a key. -/
def aliasLookup (aliases : List (String × String)) (k : String) : Option String :=
  (aliases.reverse.find? (fun kv => kv.1 == k)).map (·.2)

/-- `_resolve_phase_dependency` (validator.py:106-119).  The by-normalized
dict is keyed by distinct normalizations whenever `validate_plan` reaches
this point, so the first match below is the unique one. -/
def resolvePhaseDependency (dep : String) (names : List String)
    (aliases : List (String × String)) : Option String :=
  if dep ∈ names then some dep
  else
    match names.find? (fun n => normalizePhaseRef n == normalizePhaseRef dep) with
    | some n => some n
    | none =>
      match extractPhaseShortRef dep with
      | some sd => aliasLookup aliases sd
      | none => none

/-- Accumulators of the first loop of `validate_plan`. -/
structure PlanScanState where
  seen : List String := []
  normed : List String := []
  aliases : List (String × String) := []
  graph : List (String × List String) := []
deriving DecidableEq

/-- One iteration of the first loop of `validate_plan` (validator.py:51-78). -/
def scanPhase (st : PlanScanState) (it : PhaseItem) : Except String PlanScanState :=
  match it with
  | .notDict => .error "Cada fase debe ser un objeto JSON."
  | .dict p =>
    match p.name with
    | none => .error "Fase invalida: falta name."
    | some name =>
      if !p.description then .error "Fase invalida: falta description."
      else
        match p.depends_on with
        | none => .error "Fase invalida: falta depends_on."
        | some dv =>
          if name ∈ st.seen then .error "Fase duplicada detectada."
          else
            let nn := normalizePhaseRef name
            if nn ∈ st.normed then .error "Fase ambigua detectada por normalizacion."
            else
              let aliases2 :=
                match extractPhaseShortRef name with
                | some sr => st.aliases ++ [(sr, name)]
                | none => st.aliases
              match dv with
              | .dother => .error "depends_on debe ser lista."
              | .dnull =>
                .ok { seen := st.seen ++ [name], normed := st.normed ++ [nn],
                      aliases := aliases2, graph := st.graph }
              | .dlist deps =>
                .ok { seen := st.seen ++ [name], normed := st.normed ++ [nn],
                      aliases := aliases2,
                      graph := if deps = [] then st.graph
                               else st.graph ++ [(name, deps)] }

def scanPhases : PlanScanState → List PhaseItem → Except String PlanScanState
  | st, [] => .ok st
  | st, it :: rest => do scanPhases (← scanPhase st it) rest

/-- Resolve one dependency list (second loop body, validator.py:82-87). -/
def resolveList (names : List String) (aliases : List (String × String)) :
    List String → Except String (List String)
  | [] => .ok []
  | dep :: ds =>
    match resolvePhaseDependency dep names aliases with
    | none => .error "Dependencia desconocida."
    | some rd => do
      let rds ← resolveList names aliases ds
      .ok (rd :: rds)

/-- Second loop of `validate_plan`: build `resolved_graph`. -/
def resolveGraph (names : List String) (aliases : List (String × String)) :
    List (String × List String) → Except String (List (String × List String))
  | [] => .ok []
  | (name, deps) :: rest => do
    let rdeps ← resolveList names aliases deps
    let rrest ← resolveGraph names aliases rest
    .ok ((name, rdeps) :: rrest)

/-! ### `_assert_acyclic` (validator.py:122-139), depth-first cycle detection

The recursion is embedded with a fuel argument counting nesting depth; the
`visiting` set grows by one node of the graph per level, so fuel exceeding
the number of graph nodes never runs out (proved below). -/

def lookupG (g : List (String × List String)) (n : String) : Option (List String) :=
  (g.find? (fun kv => kv.1 == n)).map (·.2)

def nodesOfG (g : List (String × List String)) : List String :=
  g.map (·.1) ++ g.flatMap (·.2)

/-- Sequentially visit a list of nodes threading the visited set. -/
def dfsL (f : List String → String → Except String (List String)) :
    List String → List String → Except String (List String)
  | visited, [] => .ok visited
  | visited, n :: ns => do
    let v ← f visited n
    dfsL f v ns

/-- The inner `dfs` of `_assert_acyclic`.  `visited`/`visiting` are the two
colour sets; a node found in `visiting` is a back-edge and raises. -/
def dfsVF (g : List (String × List String)) :
    Nat → List String → List String → String → Except String (List String)
  | 0, visited, _, _ => .ok visited
  | fuel + 1, visited, visiting, node =>
    if node ∈ visiting then .error "Dependencia circular detectada."
    else if node ∈ visited then .ok visited
    else
      match lookupG g node with
      | none => .ok (node :: visited)
      | some nbrs => do
        let v ← dfsL (fun acc n => dfsVF g fuel acc (node :: visiting) n) visited nbrs
        .ok (node :: v)

def dfsFuel (g : List (String × List String)) : Nat := (nodesOfG g).length + 1

/-- The `for node in graph: dfs(node)` loop. -/
def dfsAll (g : List (String × List String)) :
    List String → List String → Except String (List String)
  | visited, [] => .ok visited
  | visited, k :: ks => do
    let v ← dfsVF g (dfsFuel g) visited [] k
    dfsAll g v ks

/-- `_assert_acyclic` (validator.py:122-139). -/
def assertAcyclic (g : List (String × List String)) : Except String Unit := do
  let _ ← dfsAll g [] (g.map (·.1))
  .ok ()

/-- `validate_plan` (validator.py:41-89). -/
def validatePlan (plan : Plan) : Except String Unit :=
  match plan.phases with
  | some (.list phases) =>
    if phases = [] then .error "El plan esta vacio o no contiene fases validas."
    else do
      let st ← scanPhases {} phases
      let rg ← resolveGraph st.seen st.aliases st.graph
      assertAcyclic rg
  | _ => .error "El plan esta vacio o no contiene fases validas."

/-! ## Correctness of the depth-first cycle detection -/

theorem bind_eq_ok {α β : Type} {x : Except String α} {f : α → Except String β} {v : β} :
    (x >>= f) = Except.ok v ↔ ∃ a, x = .ok a ∧ f a = .ok v := by
  cases x <;> simp [Bind.bind, Except.bind]

theorem bind_eq_err {α β : Type} {x : Except String α} {f : α → Except String β} {e : String} :
    (x >>= f) = Except.error e ↔
      x = .error e ∨ ∃ a, x = .ok a ∧ f a = .error e := by
  cases x <;> simp [Bind.bind, Except.bind]

/-- The edge relation of the adjacency list. -/
def Edge (g : List (String × List String)) (a b : String) : Prop :=
  ∃ nbrs, lookupG g a = some nbrs ∧ b ∈ nbrs

/-- Some node lies on a directed cycle. -/
def HasCycle (g : List (String × List String)) : Prop :=
  ∃ a, Relation.TransGen (Edge g) a a

/-- `v` is closed under out-edges. -/
def Closed (g : List (String × List String)) (v : List String) : Prop :=
  ∀ a ∈ v, ∀ b, Edge g a b → b ∈ v

/-- No member of `v` lies on a cycle. -/
def NoCyc (g : List (String × List String)) (v : List String) : Prop :=
  ∀ a ∈ v, ¬ Relation.TransGen (Edge g) a a

theorem closed_reach {g v a b} (hc : Closed g v) (ha : a ∈ v)
    (hr : Relation.ReflTransGen (Edge g) a b) : b ∈ v := by
  induction hr with
  | refl => exact ha
  | tail _ hedge ih => exact hc _ ih _ hedge

theorem lookupG_mem_keys {g : List (String × List String)} {n nbrs}
    (h : lookupG g n = some nbrs) : n ∈ g.map Prod.fst ∧ ∀ b ∈ nbrs, b ∈ nodesOfG g := by
  unfold lookupG at h
  rcases Option.map_eq_some'.mp h with ⟨kv, hfind, hsnd⟩
  have hmem := List.mem_of_find?_eq_some hfind
  have hpred := List.find?_some hfind
  have hk : kv.1 = n := by simpa using hpred
  constructor
  · exact List.mem_map.mpr ⟨kv, hmem, hk⟩
  · intro b hb
    unfold nodesOfG
    refine List.mem_append.mpr (Or.inr ?_)
    exact List.mem_flatMap.mpr ⟨kv, hmem, by rw [hsnd]; exact hb⟩

theorem edge_src_key {g a b} (h : Edge g a b) : a ∈ g.map Prod.fst := by
  rcases h with ⟨nbrs, hl, -⟩
  exact (lookupG_mem_keys hl).1

theorem keys_sub_nodes {g : List (String × List String)} :
    ∀ x ∈ g.map Prod.fst, x ∈ nodesOfG g := by
  intro x hx
  exact List.mem_append.mpr (Or.inl hx)

theorem len_filter_mono {α : Type} (p q : α → Bool)
    (himp : ∀ x, p x = true → q x = true) (l : List α) :
    (l.filter p).length ≤ (l.filter q).length := by
  induction l with
  | nil => simp
  | cons a t ih =>
    by_cases hp : p a = true
    · simp [List.filter, hp, himp a hp, Nat.succ_le_succ ih]
    · have : (List.filter p (a :: t)).length = (List.filter p t).length := by
        simp [List.filter, Bool.eq_false_iff.mpr hp]
      rw [this]
      by_cases hq : q a = true
      · simp only [List.filter, hq]
        exact Nat.le_succ_of_le ih
      · have : (List.filter q (a :: t)).length = (List.filter q t).length := by
          simp [List.filter, Bool.eq_false_iff.mpr hq]
        rw [this]
        exact ih

/-- Count of graph nodes not yet grey: the dfs recursion measure. -/
def freeCount (g : List (String × List String)) (visiting : List String) : Nat :=
  ((nodesOfG g).filter (fun x => decide (¬ x ∈ visiting))).length

theorem freeCount_lt {g visiting node} (hU : node ∈ nodesOfG g)
    (hv : node ∉ visiting) : freeCount g (node :: visiting) < freeCount g visiting := by
  unfold freeCount
  have himp : ∀ x, (fun x => decide (¬ x ∈ node :: visiting)) x = true →
      (fun x => decide (¬ x ∈ visiting)) x = true := by
    intro x hx
    simp only [decide_eq_true_eq] at hx ⊢
    exact fun hmem => hx (List.mem_cons_of_mem _ hmem)
  -- split U at the occurrence of node
  rcases List.append_of_mem hU with ⟨s, t, hst⟩
  rw [hst]
  simp only [List.filter_append]
  have hnode_new : (fun x => decide (¬ x ∈ node :: visiting)) node = false := by simp
  have hnode_old : (fun x => decide (¬ x ∈ visiting)) node = true := by simpa using hv
  simp only [List.length_append, List.filter, hnode_new, hnode_old]
  have h1 := len_filter_mono _ _ himp s
  have h2 := len_filter_mono _ _ himp t
  simp only [List.length_cons]
  omega

/-- Invariant carried by the visited accumulator during the dfs. -/
abbrev DfsInv (g : List (String × List String)) (X acc : List String) : Prop :=
  Closed g acc ∧ NoCyc g acc ∧ ∀ x ∈ acc, x ∉ X

theorem dfsL_props {g : List (String × List String)}
    {f : List String → String → Except String (List String)} {X : List String}
    (hf : ∀ acc n w, f acc n = .ok w → DfsInv g X acc →
      DfsInv g X w ∧ (∀ x ∈ acc, x ∈ w) ∧ n ∈ w) :
    ∀ ns visited v, dfsL f visited ns = .ok v → DfsInv g X visited →
      DfsInv g X v ∧ (∀ x ∈ visited, x ∈ v) ∧ ∀ n ∈ ns, n ∈ v := by
  intro ns
  induction ns with
  | nil =>
    intro visited v h hinv
    simp only [dfsL, Except.ok.injEq] at h
    subst h
    exact ⟨hinv, fun x hx => hx, by simp⟩
  | cons n ns ih =>
    intro visited v h hinv
    simp only [dfsL] at h
    rcases bind_eq_ok.mp h with ⟨w, hw, hrest⟩
    obtain ⟨hinvw, hsub, hn⟩ := hf visited n w hw hinv
    obtain ⟨hinvv, hsub2, hns⟩ := ih w v hrest hinvw
    refine ⟨hinvv, fun x hx => hsub2 x (hsub x hx), ?_⟩
    intro m hm
    rcases List.mem_cons.mp hm with rfl | hm2
    · exact hsub2 m hn
    · exact hns m hm2

theorem dfsVF_ok_props (g : List (String × List String)) :
    ∀ fuel visiting visited node v,
      freeCount g visiting < fuel →
      dfsVF g fuel visited visiting node = .ok v →
      DfsInv g visiting visited →
      DfsInv g visiting v ∧ (∀ x ∈ visited, x ∈ v) ∧ node ∈ v := by
  intro fuel
  induction fuel with
  | zero => intro visiting visited node v hb; omega
  | succ m ih =>
    intro visiting visited node v hb h hinv
    rw [dfsVF] at h
    by_cases hvisg : node ∈ visiting
    · rw [if_pos hvisg] at h
      cases h
    rw [if_neg hvisg] at h
    by_cases hvisd : node ∈ visited
    · rw [if_pos hvisd] at h
      obtain rfl : visited = v := by cases h; rfl
      exact ⟨hinv, fun x hx => hx, hvisd⟩
    rw [if_neg hvisd] at h
    obtain ⟨hcl, hnc, hdisj⟩ := hinv
    cases hlook : lookupG g node with
    | none =>
      rw [hlook] at h
      obtain rfl : node :: visited = v := by cases h; rfl
      refine ⟨⟨?_, ?_, ?_⟩, fun x hx => List.mem_cons_of_mem _ hx, by simp⟩
      · intro a ha b hedge
        rcases List.mem_cons.mp ha with rfl | ha2
        · rcases hedge with ⟨nbrs, hl, -⟩
          rw [hlook] at hl
          cases hl
        · exact List.mem_cons_of_mem _ (hcl a ha2 b hedge)
      · intro a ha hcyc
        rcases List.mem_cons.mp ha with rfl | ha2
        · rcases Relation.TransGen.head'_iff.mp hcyc with ⟨c, hedge, -⟩
          rcases hedge with ⟨nbrs, hl, -⟩
          rw [hlook] at hl
          cases hl
        · exact hnc a ha2 hcyc
      · intro x hx
        rcases List.mem_cons.mp hx with rfl | hx2
        · exact hvisg
        · exact hdisj x hx2
    | some nbrs =>
      rw [hlook] at h
      rcases bind_eq_ok.mp h with ⟨v0, hv0, hfin⟩
      obtain rfl : node :: v0 = v := by cases hfin; rfl
      have hUnode : node ∈ nodesOfG g :=
        keys_sub_nodes _ ((lookupG_mem_keys hlook).1)
      have hbound2 : freeCount g (node :: visiting) < m :=
        Nat.lt_of_lt_of_le (freeCount_lt hUnode hvisg) (by omega)
      have hf : ∀ acc n w,
          dfsVF g m acc (node :: visiting) n = .ok w →
          DfsInv g (node :: visiting) acc →
          DfsInv g (node :: visiting) w ∧ (∀ x ∈ acc, x ∈ w) ∧ n ∈ w := by
        intro acc n w hw hinv2
        obtain ⟨h1, h2, h3⟩ := ih (node :: visiting) acc n w hbound2 hw hinv2
        exact ⟨h1, h2, h3⟩
      have hinv0 : DfsInv g (node :: visiting) visited := by
        refine ⟨hcl, hnc, ?_⟩
        intro x hx
        intro hmem
        rcases List.mem_cons.mp hmem with rfl | hmem2
        · exact hvisd hx
        · exact hdisj x hx hmem2
      obtain ⟨⟨hcl0, hnc0, hdisj0⟩, hsub0, hnbrs0⟩ :=
        dfsL_props hf nbrs visited v0 hv0 hinv0
      refine ⟨⟨?_, ?_, ?_⟩, fun x hx => List.mem_cons_of_mem _ (hsub0 x hx), by simp⟩
      · intro a ha b hedge
        rcases List.mem_cons.mp ha with rfl | ha2
        · rcases hedge with ⟨nbrs2, hl2, hb2⟩
          rw [hlook] at hl2
          obtain rfl : nbrs = nbrs2 := by cases hl2; rfl
          exact List.mem_cons_of_mem _ (hnbrs0 b hb2)
        · exact List.mem_cons_of_mem _ (hcl0 a ha2 b hedge)
      · intro a ha hcyc
        rcases List.mem_cons.mp ha with rfl | ha2
        · rcases Relation.TransGen.head'_iff.mp hcyc with ⟨c, hedge, hrest⟩
          rcases hedge with ⟨nbrs2, hl2, hb2⟩
          rw [hlook] at hl2
          obtain rfl : nbrs = nbrs2 := by cases hl2; rfl
          have hcv0 : c ∈ v0 := hnbrs0 c hb2
          have : a ∈ v0 := closed_reach hcl0 hcv0 hrest
          exact hdisj0 a this (by simp)
        · exact hnc0 a ha2 hcyc
      · intro x hx
        rcases List.mem_cons.mp hx with rfl | hx2
        · exact hvisg
        · exact fun hmem => hdisj0 x hx2 (List.mem_cons_of_mem _ hmem)

theorem dfsAll_props (g : List (String × List String)) :
    ∀ ks visited v, dfsAll g visited ks = .ok v → DfsInv g [] visited →
      DfsInv g [] v ∧ (∀ x ∈ visited, x ∈ v) ∧ ∀ k ∈ ks, k ∈ v := by
  intro ks
  induction ks with
  | nil =>
    intro visited v h hinv
    simp only [dfsAll, Except.ok.injEq] at h
    subst h
    exact ⟨hinv, fun x hx => hx, by simp⟩
  | cons k ks ih =>
    intro visited v h hinv
    simp only [dfsAll] at h
    rcases bind_eq_ok.mp h with ⟨w, hw, hrest⟩
    have hbound : freeCount g [] < dfsFuel g := by
      unfold freeCount dfsFuel
      have : ((nodesOfG g).filter (fun x => decide (¬ x ∈ ([] : List String)))).length ≤
          (nodesOfG g).length := by
        exact (nodesOfG g).length_filter_le (fun x => decide (¬ x ∈ ([] : List String)))
      omega
    obtain ⟨hinvw, hsubw, hkw⟩ := dfsVF_ok_props g (dfsFuel g) [] visited k w hbound hw hinv
    obtain ⟨hinvv, hsubv, hksv⟩ := ih w v hrest hinvw
    refine ⟨hinvv, fun x hx => hsubv x (hsubw x hx), ?_⟩
    intro m hm
    rcases List.mem_cons.mp hm with rfl | hm2
    · exact hsubv m hkw
    · exact hksv m hm2

theorem assertAcyclic_ok_no_cycle {g : List (String × List String)}
    (h : assertAcyclic g = .ok ()) : ¬ HasCycle g := by
  rintro ⟨a, hcyc⟩
  unfold assertAcyclic at h
  rcases bind_eq_ok.mp h with ⟨V, hV, -⟩
  have hinv0 : DfsInv g [] [] := by
    refine ⟨?_, ?_, ?_⟩
    · intro x hx; cases hx
    · intro x hx; cases hx
    · simp
  obtain ⟨⟨-, hnc, -⟩, -, hkeys⟩ := dfsAll_props g (g.map (·.1)) [] V hV hinv0
  have haV : a ∈ V := by
    rcases Relation.TransGen.head'_iff.mp hcyc with ⟨c, hedge, -⟩
    exact hkeys a (edge_src_key hedge)
  exact hnc a haV hcyc

/-- Relation between the grey stack and the node being visited: the top of
the stack (when any) has an edge to the current node. -/
def headEdge (g : List (String × List String)) (t : List String) (a : String) : Prop :=
  ∀ b t', t = b :: t' → Edge g b a

/-- The grey stack is edge-linked from each entry to the entry pushed on top
of it. -/
def StackChain (g : List (String × List String)) : List String → Prop
  | [] => True
  | a :: t => headEdge g t a ∧ StackChain g t

/-- From any stack entry there is a path to the top of the stack. -/
theorem stack_reach (g : List (String × List String)) :
    ∀ pre x post, StackChain g (pre ++ x :: post) →
      Relation.ReflTransGen (Edge g) x ((pre ++ [x]).headD x) := by
  intro pre
  induction pre with
  | nil =>
    intro x post _
    simp only [List.nil_append, List.headD]
    exact Relation.ReflTransGen.refl
  | cons a pre2 ih =>
    intro x post hchain
    obtain ⟨hhead, hrest⟩ : headEdge g (pre2 ++ x :: post) a ∧
        StackChain g (pre2 ++ x :: post) := by
      simpa [StackChain] using hchain
    have hr := ih x post hrest
    cases hp2 : pre2 with
    | nil =>
      subst hp2
      have hedge : Edge g x a := hhead x post rfl
      simpa using Relation.ReflTransGen.single hedge
    | cons c p3 =>
      subst hp2
      have hr2 : Relation.ReflTransGen (Edge g) x c := by simpa using hr
      have hedge : Edge g c a := hhead c (p3 ++ x :: post) rfl
      simpa using hr2.tail hedge

/-- Finding the current node grey exhibits a directed cycle. -/
theorem stack_cycle {g visiting node} (hchain : StackChain g visiting)
    (hhead : headEdge g visiting node) (hmem : node ∈ visiting) : HasCycle g := by
  rcases List.append_of_mem hmem with ⟨pre, post, rfl⟩
  have hreach := stack_reach g pre node post hchain
  cases pre with
  | nil =>
    have hedge : Edge g node node := hhead node post rfl
    exact ⟨node, Relation.TransGen.single hedge⟩
  | cons a pre2 =>
    have hreach2 : Relation.ReflTransGen (Edge g) node a := by simpa using hreach
    have hedge : Edge g a node := hhead a (pre2 ++ node :: post) rfl
    exact ⟨node, Relation.TransGen.tail' hreach2 hedge⟩

theorem dfsL_err {g : List (String × List String)} {fuel : Nat} {X : List String}
    (hf : ∀ acc n e, dfsVF g fuel acc X n = .error e → headEdge g X n → HasCycle g) :
    ∀ ns visited e, dfsL (fun acc n => dfsVF g fuel acc X n) visited ns = .error e →
      (∀ n ∈ ns, headEdge g X n) → HasCycle g := by
  intro ns
  induction ns with
  | nil => intro visited e h _; simp [dfsL] at h
  | cons n ns ih =>
    intro visited e h hn
    simp only [dfsL] at h
    rcases bind_eq_err.mp h with herr | ⟨w, hw, hrest⟩
    · exact hf visited n e herr (hn n (by simp))
    · exact ih w e hrest (fun m hm => hn m (by simp [hm]))

theorem dfsVF_err_cycle (g : List (String × List String)) :
    ∀ fuel visited visiting node e,
      dfsVF g fuel visited visiting node = .error e →
      StackChain g visiting → headEdge g visiting node → HasCycle g := by
  intro fuel
  induction fuel with
  | zero => intro visited visiting node e h; rw [dfsVF] at h; cases h
  | succ m ih =>
    intro visited visiting node e h hchain hhead
    rw [dfsVF] at h
    by_cases hvisg : node ∈ visiting
    · exact stack_cycle hchain hhead hvisg
    rw [if_neg hvisg] at h
    by_cases hvisd : node ∈ visited
    · rw [if_pos hvisd] at h; cases h
    rw [if_neg hvisd] at h
    cases hlook : lookupG g node with
    | none => rw [hlook] at h; cases h
    | some nbrs =>
      rw [hlook] at h
      rcases bind_eq_err.mp h with herr | ⟨v0, hv0, hfin⟩
      · have hchain2 : StackChain g (node :: visiting) := by
          simpa [StackChain] using And.intro hhead hchain
        have hf : ∀ acc n e2, dfsVF g m acc (node :: visiting) n = .error e2 →
            headEdge g (node :: visiting) n → HasCycle g := by
          intro acc n e2 herr2 hh2
          exact ih acc (node :: visiting) n e2 herr2 hchain2 hh2
        refine dfsL_err hf nbrs visited e herr ?_
        intro n hn b t' hbt
        have hb : b = node := by
          injection hbt with h1 h2
          exact h1.symm
        rw [hb]
        exact ⟨nbrs, hlook, hn⟩
      · cases hfin

theorem dfsAll_err (g : List (String × List String)) :
    ∀ ks visited e, dfsAll g visited ks = .error e → HasCycle g := by
  intro ks
  induction ks with
  | nil => intro visited e h; simp [dfsAll] at h
  | cons k ks ih =>
    intro visited e h
    simp only [dfsAll] at h
    rcases bind_eq_err.mp h with herr | ⟨w, hw, hrest⟩
    · refine dfsVF_err_cycle g (dfsFuel g) visited [] k e herr ?_ ?_
      · simp [StackChain]
      · intro b t' hbt
        simp at hbt
    · exact ih w e hrest

theorem assertAcyclic_err_cycle {g : List (String × List String)} {e : String}
    (h : assertAcyclic g = .error e) : HasCycle g := by
  unfold assertAcyclic at h
  rcases bind_eq_err.mp h with herr | ⟨V, hV, hfin⟩
  · exact dfsAll_err g _ [] e herr
  · cases hfin

/-- The dfs of `_assert_acyclic` succeeds exactly on acyclic graphs. -/
theorem assertAcyclic_ok_iff (g : List (String × List String)) :
    assertAcyclic g = .ok () ↔ ¬ HasCycle g := by
  constructor
  · exact assertAcyclic_ok_no_cycle
  · intro hnc
    cases hres : assertAcyclic g with
    | ok u => cases u; rfl
    | error e => exact absurd (assertAcyclic_err_cycle hres) hnc

/-! ## Closed forms for the accumulators of `validate_plan` -/

/-- The phase names in order (`seen_names` on success). -/
def namesOf (l : List PhaseItem) : List String :=
  l.filterMap (fun it => match it with | .dict p => p.name | .notDict => none)

/-- The alias map entries in insertion order (`aliases` on success). -/
def aliasesOf (l : List PhaseItem) : List (String × String) :=
  l.filterMap (fun it =>
    match it with
    | .dict p => p.name.bind (fun n => (extractPhaseShortRef n).map (fun sr => (sr, n)))
    | .notDict => none)

/-- The unresolved dependency graph (`graph` on success): one entry per
phase with a nonempty dependency list. -/
def rawGraphOf (l : List PhaseItem) : List (String × List String) :=
  l.filterMap (fun it =>
    match it with
    | .dict p =>
      match p.name, p.depends_on with
      | some n, some (.dlist deps) => if deps = [] then none else some (n, deps)
      | _, _ => none
    | .notDict => none)

/-- Structural well-formedness of one phase object: the three required keys
are present and `depends_on` is falsy-or-list. -/
def phaseWFb : PhaseItem → Bool
  | .dict p =>
    p.name.isSome && p.description &&
      (match p.depends_on with
       | some .dnull => true
       | some (.dlist _) => true
       | _ => false)
  | .notDict => false

/-- Structural well-formedness of a phase list: nonempty, every item a
well-formed phase object, and names pairwise distinct even after
normalization (which implies exact distinctness). -/
def planWFb (l : List PhaseItem) : Bool :=
  !l.isEmpty && l.all phaseWFb &&
    decide (((namesOf l).map normalizePhaseRef).Nodup)

theorem scanPhases_ok : ∀ (l : List PhaseItem) (st : PlanScanState),
    (∀ it ∈ l, phaseWFb it = true) →
    ((st.seen ++ namesOf l).map normalizePhaseRef).Nodup →
    st.normed = st.seen.map normalizePhaseRef →
    scanPhases st l = .ok
      { seen := st.seen ++ namesOf l,
        normed := (st.seen ++ namesOf l).map normalizePhaseRef,
        aliases := st.aliases ++ aliasesOf l,
        graph := st.graph ++ rawGraphOf l } := by
  intro l
  induction l with
  | nil =>
    intro st hwf hnd hinv
    simp only [scanPhases, namesOf, aliasesOf, rawGraphOf, List.filterMap_nil,
      List.append_nil, Except.ok.injEq]
    cases st
    simp_all
  | cons it rest ih =>
    intro st hwf hnd hinv
    have hitwf := hwf it (by simp)
    cases it with
    | notDict => simp [phaseWFb] at hitwf
    | dict p =>
      simp only [phaseWFb, Bool.and_eq_true] at hitwf
      obtain ⟨⟨hname, hdesc⟩, hdeps⟩ := hitwf
      rcases Option.isSome_iff_exists.mp hname with ⟨name, hnameeq⟩
      have hnames : namesOf (PhaseItem.dict p :: rest) = name :: namesOf rest := by
        simp [namesOf, hnameeq]
      have hnd2 : (st.seen.map normalizePhaseRef ++
          (name :: namesOf rest).map normalizePhaseRef).Nodup := by
        rw [← List.map_append]
        simpa [hnames] using hnd
      have hdisj := (List.nodup_append.mp hnd2).2.2
      have hnotseen : name ∉ st.seen := by
        intro hmem
        exact hdisj (List.mem_map.mpr ⟨name, hmem, rfl⟩) (by simp)
      have hnotnorm : normalizePhaseRef name ∉ st.normed := by
        rw [hinv]
        intro hmem
        exact hdisj hmem (by simp)
      have hmain : ∀ (al2 : List (String × String)) (g2 : List (String × List String)),
          scanPhase st (PhaseItem.dict p) = .ok
            { seen := st.seen ++ [name], normed := st.normed ++ [normalizePhaseRef name],
              aliases := al2, graph := g2 } →
          al2 ++ aliasesOf rest = st.aliases ++ aliasesOf (PhaseItem.dict p :: rest) →
          g2 ++ rawGraphOf rest = st.graph ++ rawGraphOf (PhaseItem.dict p :: rest) →
          scanPhases st (PhaseItem.dict p :: rest) = .ok
            { seen := st.seen ++ namesOf (PhaseItem.dict p :: rest),
              normed := (st.seen ++ namesOf (PhaseItem.dict p :: rest)).map normalizePhaseRef,
              aliases := st.aliases ++ aliasesOf (PhaseItem.dict p :: rest),
              graph := st.graph ++ rawGraphOf (PhaseItem.dict p :: rest) } := by
        intro al2 g2 hstep hal hg
        have hscan : scanPhases st (PhaseItem.dict p :: rest) =
            scanPhases { seen := st.seen ++ [name],
                         normed := st.normed ++ [normalizePhaseRef name],
                         aliases := al2, graph := g2 } rest := by
          simp only [scanPhases, hstep]
          rfl
        rw [hscan]
        rw [ih _ (fun x hx => hwf x (by simp [hx]))
          (by simpa [List.append_assoc] using hnd2)
          (by simp [hinv])]
        simp only [Except.ok.injEq, PlanScanState.mk.injEq]
        refine ⟨by simp [hnames, List.append_assoc], by simp [hnames, List.append_assoc],
          hal, hg⟩
      cases hex : extractPhaseShortRef name with
      | some sr =>
        cases hdo : p.depends_on with
        | none => rw [hdo] at hdeps; simp at hdeps
        | some dv =>
          rw [hdo] at hdeps
          cases dv with
          | dother => simp at hdeps
          | dnull =>
            refine hmain (st.aliases ++ [(sr, name)]) st.graph ?_ ?_ ?_
            · simp [scanPhase, hnameeq, hdesc, hdo, hex, hnotseen, hnotnorm]
            · simp [aliasesOf, hnameeq, hex, List.append_assoc]
            · simp [rawGraphOf, hnameeq, hdo]
          | dlist deps =>
            refine hmain (st.aliases ++ [(sr, name)])
              (if deps = [] then st.graph else st.graph ++ [(name, deps)]) ?_ ?_ ?_
            · simp [scanPhase, hnameeq, hdesc, hdo, hex, hnotseen, hnotnorm]
            · simp [aliasesOf, hnameeq, hex, List.append_assoc]
            · by_cases hd : deps = [] <;>
                simp [rawGraphOf, hnameeq, hdo, hd, List.append_assoc]
      | none =>
        cases hdo : p.depends_on with
        | none => rw [hdo] at hdeps; simp at hdeps
        | some dv =>
          rw [hdo] at hdeps
          cases dv with
          | dother => simp at hdeps
          | dnull =>
            refine hmain st.aliases st.graph ?_ ?_ ?_
            · simp [scanPhase, hnameeq, hdesc, hdo, hex, hnotseen, hnotnorm]
            · simp [aliasesOf, hnameeq, hex]
            · simp [rawGraphOf, hnameeq, hdo]
          | dlist deps =>
            refine hmain st.aliases
              (if deps = [] then st.graph else st.graph ++ [(name, deps)]) ?_ ?_ ?_
            · simp [scanPhase, hnameeq, hdesc, hdo, hex, hnotseen, hnotnorm]
            · simp [aliasesOf, hnameeq, hex]
            · by_cases hd : deps = [] <;>
                simp [rawGraphOf, hnameeq, hdo, hd, List.append_assoc]

/-- Resolution with identity fallback; equal to the code resolution
whenever that succeeds. -/
def resolveDep1 (names : List String) (aliases : List (String × String))
    (d : String) : String :=
  (resolvePhaseDependency d names aliases).getD d

/-- The resolved graph, written with the total fallback resolution. -/
def resolvedGraphTotal (names : List String) (aliases : List (String × String))
    (g : List (String × List String)) : List (String × List String) :=
  g.map (fun pr => (pr.1, pr.2.map (resolveDep1 names aliases)))

/-- Every dependency reference in the graph resolves. -/
def ResolvesAll (names : List String) (aliases : List (String × String))
    (g : List (String × List String)) : Prop :=
  ∀ pr ∈ g, ∀ d ∈ pr.2, (resolvePhaseDependency d names aliases).isSome = true

theorem resolveList_ok {names : List String} {aliases : List (String × String)} :
    ∀ ds, (∀ d ∈ ds, (resolvePhaseDependency d names aliases).isSome = true) →
      resolveList names aliases ds = .ok (ds.map (resolveDep1 names aliases)) := by
  intro ds
  induction ds with
  | nil => intro _; simp [resolveList]
  | cons d ds ih =>
    intro h
    rcases Option.isSome_iff_exists.mp (h d (by simp)) with ⟨rd, hrd⟩
    rw [resolveList, hrd, ih (fun x hx => h x (by simp [hx]))]
    simp [resolveDep1, hrd, Bind.bind, Except.bind]

theorem resolveList_err {names : List String} {aliases : List (String × String)} :
    ∀ ds d, d ∈ ds → resolvePhaseDependency d names aliases = none →
      ∃ e, resolveList names aliases ds = .error e := by
  intro ds
  induction ds with
  | nil => intro d h; cases h
  | cons x ds ih =>
    intro d hmem hres
    rcases List.mem_cons.mp hmem with rfl | hmem2
    · exact ⟨"Dependencia desconocida.", by rw [resolveList, hres]⟩
    · cases hx : resolvePhaseDependency x names aliases with
      | none => exact ⟨"Dependencia desconocida.", by rw [resolveList, hx]⟩
      | some rx =>
        rcases ih d hmem2 hres with ⟨e, he⟩
        exact ⟨e, by rw [resolveList, hx]; simp [he, Bind.bind, Except.bind]⟩

theorem resolveGraph_ok {names : List String} {aliases : List (String × String)} :
    ∀ g, ResolvesAll names aliases g →
      resolveGraph names aliases g = .ok (resolvedGraphTotal names aliases g) := by
  intro g
  induction g with
  | nil => intro _; simp [resolveGraph, resolvedGraphTotal]
  | cons hd tl ih =>
    intro h
    obtain ⟨n, ds⟩ := hd
    rw [resolveGraph, resolveList_ok ds (fun d hd2 => h (n, ds) (by simp) d hd2),
      ih (fun pr hpr d hd2 => h pr (by simp [hpr]) d hd2)]
    simp [resolvedGraphTotal, Bind.bind, Except.bind]

theorem resolveGraph_err {names : List String} {aliases : List (String × String)} :
    ∀ g (pr : String × List String) d, pr ∈ g → d ∈ pr.2 →
      resolvePhaseDependency d names aliases = none →
      ∃ e, resolveGraph names aliases g = .error e := by
  intro g
  induction g with
  | nil => intro pr d h; cases h
  | cons hd tl ih =>
    intro pr d hmem hd2 hres
    obtain ⟨n, ds⟩ := hd
    rcases List.mem_cons.mp hmem with rfl | hmem2
    · rcases resolveList_err ds d hd2 hres with ⟨e, he⟩
      exact ⟨e, by rw [resolveGraph, he]; rfl⟩
    · cases hlist : resolveList names aliases ds with
      | error e => exact ⟨e, by rw [resolveGraph, hlist]; rfl⟩
      | ok rds =>
        rcases ih pr d hmem2 hd2 hres with ⟨e, he⟩
        exact ⟨e, by rw [resolveGraph, hlist]; simp [he, Bind.bind, Except.bind]⟩

theorem planWFb_parts {l : List PhaseItem} (h : planWFb l = true) :
    l ≠ [] ∧ (∀ it ∈ l, phaseWFb it = true) ∧
      ((namesOf l).map normalizePhaseRef).Nodup := by
  simp only [planWFb, Bool.and_eq_true, decide_eq_true_eq, Bool.not_eq_true',
    List.isEmpty_eq_false_iff_exists_mem, List.all_eq_true] at h
  obtain ⟨⟨h1, h2⟩, h3⟩ := h
  refine ⟨?_, h2, h3⟩
  rcases h1 with ⟨x, hx⟩
  intro hnil
  rw [hnil] at hx
  cases hx

/-- With a structurally well-formed phase list, `validate_plan` reduces to
resolution followed by the acyclicity check. -/
theorem validatePlan_char (l : List PhaseItem) (hwf : planWFb l = true) :
    validatePlan { phases := some (.list l) } =
      (resolveGraph (namesOf l) (aliasesOf l) (rawGraphOf l) >>= fun rg =>
        assertAcyclic rg) := by
  obtain ⟨hne, hall, hnd⟩ := planWFb_parts hwf
  unfold validatePlan
  simp only
  rw [if_neg hne]
  rw [scanPhases_ok l {} hall (by simpa using hnd) (by simp)]
  simp [Bind.bind, Except.bind]

/-- `validate_plan` accepts a well-formed plan iff every reference resolves
and the resolved graph is acyclic. -/
theorem validatePlan_ok_iff (l : List PhaseItem) (hwf : planWFb l = true) :
    validatePlan { phases := some (.list l) } = .ok () ↔
      ResolvesAll (namesOf l) (aliasesOf l) (rawGraphOf l) ∧
        ¬ HasCycle (resolvedGraphTotal (namesOf l) (aliasesOf l) (rawGraphOf l)) := by
  rw [validatePlan_char l hwf]
  by_cases hres : ResolvesAll (namesOf l) (aliasesOf l) (rawGraphOf l)
  · rw [resolveGraph_ok _ hres]
    show assertAcyclic _ = .ok () ↔ _
    rw [assertAcyclic_ok_iff]
    simp [hres]
  · have hfail : ∃ pr ∈ rawGraphOf l, ∃ d ∈ pr.2,
        resolvePhaseDependency d (namesOf l) (aliasesOf l) = none := by
      unfold ResolvesAll at hres
      push_neg at hres
      rcases hres with ⟨pr, hpr, d, hd, hns⟩
      exact ⟨pr, hpr, d, hd, Option.not_isSome_iff_eq_none.mp (by simpa using hns)⟩
    rcases hfail with ⟨pr, hpr, d, hd, hnone⟩
    rcases resolveGraph_err (rawGraphOf l) pr d hpr hd hnone with ⟨e, he⟩
    rw [he]
    constructor
    · intro hcontra
      simp [Bind.bind, Except.bind] at hcontra
    · rintro ⟨hcontra, -⟩
      exact absurd hcontra hres

theorem resolveDep1_exact {names : List String} {aliases : List (String × String)}
    {d : String} (h : d ∈ names) : resolveDep1 names aliases d = d := by
  simp [resolveDep1, resolvePhaseDependency, h]

theorem mapResolve_eq_self {names : List String} {aliases : List (String × String)} :
    ∀ ds : List String, (∀ d ∈ ds, d ∈ names) →
      ds.map (resolveDep1 names aliases) = ds := by
  intro ds
  induction ds with
  | nil => intro _; simp
  | cons x xs ih =>
    intro h
    simp only [List.map_cons, List.cons.injEq]
    exact ⟨resolveDep1_exact (h x (by simp)), ih (fun d hd => h d (by simp [hd]))⟩

theorem resolvedGraphTotal_eq_raw {names : List String}
    {aliases : List (String × String)} {g : List (String × List String)}
    (h : ∀ pr ∈ g, ∀ d ∈ pr.2, d ∈ names) :
    resolvedGraphTotal names aliases g = g := by
  unfold resolvedGraphTotal
  induction g with
  | nil => simp
  | cons hd tl ih =>
    obtain ⟨n, ds⟩ := hd
    simp only [List.map_cons, List.cons.injEq]
    refine ⟨?_, ih (fun pr hpr d hd2 => h pr (by simp [hpr]) d hd2)⟩
    rw [mapResolve_eq_self ds (fun d hd2 => h (n, ds) (by simp) d hd2)]

theorem resolvesAll_of_exact {names : List String} {aliases : List (String × String)}
    {g : List (String × List String)} (h : ∀ pr ∈ g, ∀ d ∈ pr.2, d ∈ names) :
    ResolvesAll names aliases g := by
  intro pr hpr d hd
  simp [resolvePhaseDependency, h pr hpr d hd]

/-! ## Agent state (core/state_manager.py)

Paths are modelled as absolute, already-split segment lists; `resolveSegs`
models `Path(p).resolve()` on absolute inputs (normalizing `.`/`..`,
ignoring symlinks).  The two `Counter` fields become association lists. -/

/-- Normalize `.` and `..` segments, as `Path.resolve` does for absolute
paths. -/
def resolveSegs (segs : List String) : List String :=
  segs.foldl
    (fun acc s =>
      if s = "." then acc
      else if s = ".." then acc.dropLast
      else acc ++ [s]) []

/-- `p` lies inside the directory `root`. -/
def insideB (root p : List String) : Bool := root.isPrefixOf p

/-- The fields of an action dict that the state manager and loop guard read. -/
structure ActRec where
  type : Option String := none
  path : Option String := none
  command : Option String := none
  prompt : Option String := none
deriving DecidableEq

/-- One `{phase, action, result}` record of `action_history`; the result
dict is abstracted to its `ok` flag, which none of the checks read. -/
structure HistEntry where
  phase : Option String
  action : ActRec
  result : Bool
deriving DecidableEq

def counterGet (c : List (String × Nat)) (k : String) : Nat :=
  ((c.find? (fun kv => kv.1 == k)).map (·.2)).getD 0

def counterInc : List (String × Nat) → String → List (String × Nat)
  | [], k => [(k, 1)]
  | (k2, n) :: t, k =>
    if k2 = k then (k2, n + 1) :: t else (k2, n) :: counterInc t k

structure AgentState where
  current_phase : Option String := none
  completed_phases : List String := []
  action_history : List HistEntry := []
  iteration_count : Nat := 0
  tool_usage_count : List (String × Nat) := []
  phase_action_count : Nat := 0
  phase_repetition_count : List (String × Nat) := []
  task_workspace : Option (List String) := none
  current_workdir : Option (List String) := none
  project_root : Option (List String) := none
  angular_cli_version : String := "unknown"
  angular_project_version : String := "unknown"
deriving DecidableEq

/-- `AgentState.set_phase` (state_manager.py:26-32). -/
def set_phase (s : AgentState) (phase_name : String) : AgentState :=
  if s.current_phase = some phase_name then
    { s with phase_repetition_count := counterInc s.phase_repetition_count phase_name }
  else
    { s with current_phase := some phase_name,
             phase_action_count := 0,
             phase_repetition_count := counterInc s.phase_repetition_count phase_name }

/-- `AgentState.complete_phase` (state_manager.py:34-36). -/
def complete_phase (s : AgentState) (phase_name : String) : AgentState :=
  if phase_name ∈ s.completed_phases then s
  else { s with completed_phases := s.completed_phases ++ [phase_name] }

/-- `AgentState.register_action` (state_manager.py:38-42). -/
def register_action (s : AgentState) (action : ActRec) (result : Bool) : AgentState :=
  { s with
    action_history := s.action_history ++ [⟨s.current_phase, action, result⟩],
    phase_action_count := s.phase_action_count + 1,
    tool_usage_count := counterInc s.tool_usage_count (action.type.getD "unknown") }

/-- `AgentState.increment_iteration` (state_manager.py:44-45). -/
def increment_iteration (s : AgentState) : AgentState :=
  { s with iteration_count := s.iteration_count + 1 }

/-- `AgentState.reset_phase` (state_manager.py:47-48). -/
def reset_phase (s : AgentState) : AgentState :=
  { s with phase_action_count := 0 }

/-- `AgentState.set_task_workspace` (state_manager.py:50-53). -/
def set_task_workspace (s : AgentState) (path : List String) : AgentState :=
  let workspace := resolveSegs path
  { s with task_workspace := some workspace, current_workdir := some workspace }

/-- `AgentState.set_current_workdir` (state_manager.py:55-56). -/
def set_current_workdir (s : AgentState) (path : List String) : AgentState :=
  { s with current_workdir := some (resolveSegs path) }

/-- `AgentState.set_project_root` (state_manager.py:58-61). -/
def set_project_root (s : AgentState) (path : List String) : AgentState :=
  let project := resolveSegs path
  { s with project_root := some project, current_workdir := some project }

/-! ## Loop guard (core/loop_guard.py) -/

def MAX_GLOBAL_ITERATIONS : Nat := 25
def MAX_ACTIONS_PER_PHASE : Nat := 10
def MAX_SAME_ACTION_STREAK : Nat := 5
def MAX_PHASE_REPETITIONS : Nat := 3

/-- `state.current_phase and state.phase_repetition_count[...] > 3`
(`None` and the empty string are falsy). -/
def phaseRepExceeded (s : AgentState) : Bool :=
  match s.current_phase with
  | none => false
  | some ph =>
    ph ≠ "" && counterGet s.phase_repetition_count ph > MAX_PHASE_REPETITIONS

/-- `(e.get("action", {}).get("path") or "").strip().lower()`. -/
def pathNorm (p : Option String) : String := pyLower (pyStrip (p.getD ""))

/-- The last five history entries. -/
def lastFive (s : AgentState) : List HistEntry :=
  s.action_history.drop (s.action_history.length - MAX_SAME_ACTION_STREAK)

/-- `LoopGuard.check` (loop_guard.py:18-51). -/
def loopGuardCheck (s : AgentState) : Except String Unit :=
  if s.iteration_count > MAX_GLOBAL_ITERATIONS then
    .error "Loop detectado: se supero el maximo global de iteraciones (25)."
  else if s.phase_action_count > MAX_ACTIONS_PER_PHASE then
    .error "Loop detectado: la fase supero 10 acciones."
  else if phaseRepExceeded s then
    .error "Loop detectado: la fase se repitio mas de 3 veces."
  else if s.action_history.length ≥ MAX_SAME_ACTION_STREAK then
    let last := lastFive s
    let lastTypes := last.map (fun e => e.action.type)
    if lastTypes.dedup.length = 1 then
      let repeatedType := lastTypes.headD none
      if repeatedType = some "file_write" ∨ repeatedType = some "file_modify" then
        let targets := last.map (fun e => pathNorm e.action.path)
        if targets.dedup.length = 1 ∧ targets.headD "" ≠ "" then
          .error "Loop detectado: 5 escrituras consecutivas sobre el mismo archivo."
        else .ok ()
      else .error "Loop detectado: 5 acciones consecutivas iguales."
    else .ok ()
  else .ok ()

/-! ## Action executor (modelled)

Modelled from the spec: the pipeline's Action Executor (class
`ActionExecutor` of `core/agent.py` in the pipeline variant exercised by
`tests/test_execution_paths.py`) is not present under `src/`; `src/`
only ships its tests and the state manager it drives.  Per spec §4.3 and
§4.5 and the tests, each top-level action is registered through
`register_action` (which counts toward `phase_action_count`), while an
`llm_call`'s nested actions are appended to `action_history` directly,
bypassing the phase counter.  The nested planner call is abstracted as
an oracle from the prompt to the nested action list. -/

/-- Modelled from the spec: log a nested action to the history without
touching `phase_action_count`. -/
def logNested (s : AgentState) (a : ActRec) (result : Bool) : AgentState :=
  { s with action_history := s.action_history ++ [⟨s.current_phase, a, result⟩] }

/-- Modelled from the spec: execute a list of actions; an `llm_call`
registers itself, then logs the oracle's nested actions. -/
def execute_actions (oracle : String → List ActRec) (s : AgentState)
    (actions : List ActRec) : AgentState :=
  actions.foldl
    (fun st a =>
      match a.type with
      | some "llm_call" =>
        let nested := oracle (a.prompt.getD "")
        nested.foldl (fun st2 na => logNested st2 na true) (register_action st a true)
      | _ => register_action st a true) s

/-! ## Planner JSON extraction and retry loop (core/planner.py)

`json.loads` has no implementation in the repo; it is abstracted as a
`parse : String → Except String J` parameter (a `json.JSONDecodeError`
becomes the error case).  Everything around it — brace slicing, the
quote-repair pass, and the retry loop — is embedded concretely.  The LLM
(`call_llm`) is an oracle from the attempt index and the prompt sent on
that attempt to the raw reply. -/

def MAX_RETRIES : Nat := 3

/-- `_extract_braced_json` (planner.py:26-31): the slice of `text` from
the first opening brace to the last closing brace, or the
`JSONDecodeError` when there is no such ordered pair. -/
def extract_braced_json (text : List Char) : Except String (List Char) :=
  match text.findIdx? (fun c => c = '{'), text.reverse.findIdx? (fun c => c = '}') with
  | some s, some rr =>
    if text.length - 1 - rr ≤ s then .error "No JSON object found"
    else .ok ((text.drop s).take (text.length - 1 - rr - s + 1))
  | _, _ => .error "No JSON object found"

/-- `src.find(pat, i)` as a split: `some (pre, post)` with
`src = pre ++ pat ++ post` at the first occurrence of `pat`. -/
def findSplit (pat : List Char) : List Char → Option (List Char × List Char)
  | [] => if prefB pat [] then some ([], []) else none
  | c :: t =>
    if prefB pat (c :: t) then some ([], (c :: t).drop pat.length)
    else
      match findSplit pat t with
      | some (pre, post) => some (c :: pre, post)
      | none => none

/-- The balanced-bracket scan of `_repair_unescaped_content_quotes`
(planner.py:68-86): starting on the opening bracket, find the quote that
follows the balanced span (possibly after whitespace).  Returns the raw
value (all chars scanned before that quote) and the input after it. -/
def balScan (opener closer : Char) : Int → List Char → List Char → Option (List Char × List Char)
  | _, _, [] => none
  | bal, acc, c :: t =>
    if c = opener then balScan opener closer (bal + 1) (acc ++ [c]) t
    else if c = closer then
      if bal - 1 = 0 then
        match t.dropWhile isPyWs with
        | '"' :: t3 => some (acc ++ [c] ++ t.takeWhile isPyWs, t3)
        | _ => balScan opener closer (bal - 1) (acc ++ [c]) t
      else balScan opener closer (bal - 1) (acc ++ [c]) t
    else balScan opener closer bal (acc ++ [c]) t

/-- The simple-value scan (planner.py:88-97): find a quote whose next
non-space char is a comma, a closing brace, or the end of input. -/
def quoteScan : List Char → List Char → Option (List Char × List Char)
  | _, [] => none
  | acc, c :: t =>
    if c = '"' then
      match t.dropWhile isPyWs with
      | [] => some (acc, t)
      | d :: _ =>
        if d = ',' ∨ d = '}' then some (acc, t) else quoteScan (acc ++ [c]) t
    else quoteScan (acc ++ [c]) t

/-- `raw_val.replace("\\", "\\\\").replace("\"", "\\\"")` (planner.py:104). -/
def escapeVal (l : List Char) : List Char :=
  (l.flatMap (fun c => if c = '\\' then ['\\', '\\'] else [c])).flatMap
    (fun c => if c = '"' then ['\\', '"'] else [c])

/-- Worker for `_repair_unescaped_content_quotes` (planner.py:42-109):
rebuild the remainder of the input and report whether any value changed.
Fuel decreases once per occurrence of the nine-char key pattern, each of
which consumes at least nine chars, so `length + 1` always suffices. -/
def repairGo (keyPat : List Char) : Nat → List Char → (List Char × Bool)
  | 0, src => (src, false)
  | fuel + 1, src =>
    match findSplit keyPat src with
    | none => (src, false)
    | some (pre, after) =>
      let ws1 := after.takeWhile isPyWs
      let r1 := after.dropWhile isPyWs
      let cp : List Char × List Char :=
        match r1 with
        | ':' :: t => ([':'], t)
        | _ => ([], r1)
      let ws2 := cp.2.takeWhile isPyWs
      let r3 := cp.2.dropWhile isPyWs
      match r3 with
      | '"' :: r4 =>
        let scanRes :=
          match r4 with
          | '{' :: _ => balScan '{' '}' 0 [] r4
          | '[' :: _ => balScan '[' ']' 0 [] r4
          | _ => quoteScan [] r4
        match scanRes with
        | none =>
          (pre ++ keyPat ++ ws1 ++ cp.1 ++ ws2 ++ ['"'] ++ r4, false)
        | some (rawVal, rest) =>
          let escaped := escapeVal rawVal
          let next := repairGo keyPat fuel rest
          (pre ++ keyPat ++ ws1 ++ cp.1 ++ ws2 ++ ['"'] ++ escaped ++ ['"'] ++ next.1,
           (if escaped = rawVal then next.2 else true))
      | _ =>
        let next := repairGo keyPat fuel r3
        (pre ++ keyPat ++ ws1 ++ cp.1 ++ ws2 ++ next.1, next.2)

/-- `_repair_unescaped_content_quotes` (planner.py:34-111). -/
def repair_unescaped_content_quotes (text : String) : String :=
  let r := repairGo "\"content\"".data (text.data.length + 1) text.data
  if r.2 then ⟨r.1⟩ else text

/-- `_extract_json` (planner.py:118-128): strict parse, then parse of the
braced slice, then parse of the quote-repaired braced slice. -/
def extract_json {J : Type} (parse : String → Except String J) (raw : String) :
    Except String J :=
  let text := pyStrip raw
  match parse text with
  | .ok v => .ok v
  | .error _ =>
    match extract_braced_json text.data with
    | .error e => .error e
    | .ok candidate =>
      match parse ⟨candidate⟩ with
      | .ok v => .ok v
      | .error _ => parse (repair_unescaped_content_quotes ⟨candidate⟩)

/-- The retry prompt built after a failed attempt (planner.py:151-156). -/
def retryPrompt (e : String) : String :=
  "Respuesta invalida. Error: " ++ e ++
  ". Corrige y responde unicamente JSON valido. IMPORTANTE: si el campo content incluye JSON interno, debe ir escapado, por ejemplo: \x7b\"a\":1\x7d dentro del string."

/-- The initial strict prompt (planner.py:133-136). -/
def strictPrompt0 (prompt : String) : String :=
  prompt ++ "\n\nResponde SOLO con JSON valido. Sin markdown, sin texto extra."

/-- The retry loop of `_ask_json` (planner.py:138-158); `n` counts the
attempts left of `range(MAX_RETRIES)`, `attempt` the current index. -/
def ask_json_go {J : Type} (oracle : Nat → String → String)
    (parse : String → Except String J) :
    Nat → Nat → String → String → Except String J
  | 0, _, _, last_error =>
    .error ("No se pudo obtener JSON valido del LLM tras 3 intentos: " ++ last_error)
  | n + 1, attempt, strict_prompt, _ =>
    match extract_json parse (oracle attempt strict_prompt) with
    | .ok v => .ok v
    | .error e => ask_json_go oracle parse n (attempt + 1) (retryPrompt e) e

/-- `_ask_json` (planner.py:131-158). -/
def ask_json {J : Type} (oracle : Nat → String → String)
    (parse : String → Except String J) (prompt : String) : Except String J :=
  ask_json_go oracle parse MAX_RETRIES 0 (strictPrompt0 prompt) ""

/-! ## Build-and-fix loop (core/orchestrator.py: `_serve_and_fix`)

The loop's environment — the `ng build` outcome, the project files hash,
the AI reply and how many steps it parses into — is a per-round
parameter; the control flow, the error-code extraction and the
strategy-change decision are embedded concretely. -/

/-- Head match for `(?:TS|NG)\d\x7b4\x7d`. -/
def codeHead : List Char → Option (String × List Char)
  | a :: b :: d1 :: d2 :: d3 :: d4 :: rest =>
    if ((a = 'T' ∧ b = 'S') ∨ (a = 'N' ∧ b = 'G')) ∧
        isDigitC d1 ∧ isDigitC d2 ∧ isDigitC d3 ∧ isDigitC d4 then
      some (⟨[a, b, d1, d2, d3, d4]⟩, rest)
    else none
  | _ => none

/-- `re.findall` left-to-right non-overlapping scan for error codes. -/
def codesGo : Nat → List Char → List String
  | 0, _ => []
  | _, [] => []
  | fuel + 1, c :: t =>
    match codeHead (c :: t) with
    | some (code, rest) => code :: codesGo fuel rest
    | none => codesGo fuel t

/-- `_extract_error_codes` (orchestrator.py:88-90); the Python `set`
becomes an order-preserving dedup (only membership and emptiness are
ever used). -/
def extract_error_codes (out : String) : List String :=
  (codesGo (out.data.length + 1) out.data).dedup

/-- ASCII apostrophe, kept out of string literals. -/
def apoC : Char := Char.ofNat 39

/-- `_FUNCTIONAL_WARNINGS` (orchestrator.py:74-83). -/
def FUNCTIONAL_WARNINGS : List String :=
  ["NG8001", "NG8002", "NG0303",
   "is not a known element",
   "Can" ++ ⟨[apoC]⟩ ++ "t bind to",
   "is not a module",
   "has no exported member",
   "Cannot find module",
   "has no properties in common",
   "is not assignable to type"]

/-- `_has_functional_warnings` (orchestrator.py:85-86). -/
def has_functional_warnings (out : String) : Bool :=
  FUNCTIONAL_WARNINGS.any (fun w => pyIn w out)

/-- `\[ERROR\].*\[plugin angular-compiler\]` (no DOTALL: `.` excludes
the newline). -/
def errPluginToks : List Tok :=
  lits "[ERROR]" ++ [.cls0 (fun c => !(c = '\n'))] ++ lits "[plugin angular-compiler]"

/-- `TS\d\x7b4\x7d:` -/
def tsCodeToks : List Tok :=
  lits "TS" ++ [.one isDigitC, .one isDigitC, .one isDigitC, .one isDigitC] ++ lits ":"

/-- One alternative of `NG\d\x7b4\x7d:.*(?:ERROR|error)`. -/
def ngCodeToks (tail : String) : List Tok :=
  lits "NG" ++ [.one isDigitC, .one isDigitC, .one isDigitC, .one isDigitC] ++
  lits ":" ++ [.cls0 (fun c => !(c = '\n'))] ++ lits tail

/-- `_has_build_errors` (orchestrator.py:1085-1094). -/
def has_build_errors (out : String) : Bool :=
  pyIn "Application bundle generation failed" out ||
  pyIn "X [ERROR]" out ||
  tokSearchB errPluginToks out.data ||
  tokSearchB tsCodeToks out.data ||
  tokSearchB (ngCodeToks "ERROR") out.data ||
  tokSearchB (ngCodeToks "error") out.data ||
  has_functional_warnings out

/-- The per-round environment of `_serve_and_fix`: the `ng build`
outcome, the files hash, the AI reply (the empty string models a falsy
`fix_resp`), and how many non-serve steps `_parse_plan` yields from it. -/
structure RoundEnv where
  ok_build : Bool
  build_out : String
  files_hash : String
  fix_resp : String
  fix_steps : Nat

/-- Outcome summary of `_serve_and_fix`: the AI consultations performed
(round index, strategy-change flag), whether the build eventually
succeeded, and whether the fix attempts were exhausted. -/
structure ServeFixResult where
  consultations : List (Nat × Bool)
  success : Bool
  exhausted : Bool
deriving DecidableEq

/-- `persistent_codes` (orchestrator.py:1152-1154): the intersection of
this round's error codes with the previous round's (empty before the
second recorded round). -/
def persistentCodes (curr : List String) (hist : List (List String)) :
    List String :=
  match hist.getLast? with
  | some prev => curr.filter (fun c => c ∈ prev)
  | none => []

/-- Loop body of `_serve_and_fix` (orchestrator.py:1111-1224);
`remaining` counts the iterations left of `range(max_fix_rounds + 1)`. -/
def serveFixGo (env : Nat → RoundEnv) (max_fix_rounds : Nat) :
    Nat → Nat → String → List (List String) → List (Nat × Bool) → ServeFixResult
  | _, 0, _, _, acc => ⟨acc, false, false⟩
  | fix_round, remaining + 1, last_hash, hist, acc =>
    let e := env fix_round
    if has_build_errors e.build_out || !e.ok_build then
      let curr_codes := extract_error_codes e.build_out
      if fix_round ≥ max_fix_rounds then ⟨acc, false, true⟩
      else
        let current_hash := e.files_hash
        let hash_changed : Bool := current_hash != last_hash
        let use_strategy_change : Bool :=
          (!(persistentCodes curr_codes hist).isEmpty && decide (0 < fix_round)) ||
          (!hash_changed && decide (0 < fix_round))
        let acc2 := acc ++ [(fix_round, use_strategy_change)]
        if e.fix_resp = "" then ⟨acc2, false, false⟩
        else if e.fix_steps = 0 then ⟨acc2, false, false⟩
        else
          serveFixGo env max_fix_rounds (fix_round + 1) remaining current_hash
            (hist ++ [curr_codes]) acc2
    else ⟨acc, true, false⟩

/-- `_serve_and_fix` (orchestrator.py:1096-1227) at its default (and
only used) `max_fix_rounds = 3`: `range(4)` iterations. -/
def serve_and_fix (env : Nat → RoundEnv) : ServeFixResult :=
  serveFixGo env 3 0 4 "" [] []

/-! # Claim theorems -/

/-! ### C1 -/

/-- C1: For every structurally well-formed plan (a `phases` list of phase
objects each carrying `name`, `description` and `depends_on`, with names
distinct even after normalization), `validate_plan` accepts iff every
`depends_on` reference resolves (by exact name, by normalized name, or by
a short `fase N`/`phase N` alias) and the resolved dependency graph is
acyclic; in particular, a plan whose `depends_on` entries are only exact
names of other phases forming no cycle always validates. -/
theorem C1_validate_plan_iff (l : List PhaseItem) (hwf : planWFb l = true) :
    (validatePlan { phases := some (.list l) } = .ok () ↔
      ResolvesAll (namesOf l) (aliasesOf l) (rawGraphOf l) ∧
        ¬ HasCycle (resolvedGraphTotal (namesOf l) (aliasesOf l) (rawGraphOf l))) ∧
    ((∀ pr ∈ rawGraphOf l, ∀ d ∈ pr.2, d ∈ namesOf l) →
      ¬ HasCycle (rawGraphOf l) →
      validatePlan { phases := some (.list l) } = .ok ()) := by
  refine ⟨validatePlan_ok_iff l hwf, ?_⟩
  intro hex hnc
  rw [validatePlan_ok_iff l hwf]
  refine ⟨resolvesAll_of_exact hex, ?_⟩
  rw [resolvedGraphTotal_eq_raw hex]
  exact hnc

def c1plan : List PhaseItem :=
  [.dict { name := some "Fase 1: Setup", description := true,
           depends_on := some (.dlist []) },
   .dict { name := some "Fase 2: Build", description := true,
           depends_on := some (.dlist ["Fase 1: Setup"]) }]

theorem C1_witness :
    validatePlan { phases := some (.list c1plan) } = .ok () :=
  (C1_validate_plan_iff c1plan (by decide)).2 (by decide)
    ((assertAcyclic_ok_iff (rawGraphOf c1plan)).mp (by decide))

/-! ### C10 -/

/-- Replace a falsy `depends_on` by the empty list. -/
def nullToNil : PhaseItem → PhaseItem
  | .dict p =>
    .dict { p with depends_on :=
      match p.depends_on with
      | some .dnull => some (.dlist [])
      | dv => dv }
  | .notDict => .notDict

theorem scanPhase_nullToNil (st : PlanScanState) (it : PhaseItem) :
    scanPhase st (nullToNil it) = scanPhase st it := by
  cases it with
  | notDict => rfl
  | dict p =>
    obtain ⟨nm, desc, dep⟩ := p
    cases dep with
    | none => rfl
    | some dv =>
      cases dv with
      | dnull =>
        cases nm with
        | none => rfl
        | some name => simp [nullToNil, scanPhase]
      | dlist ds => rfl
      | dother => rfl

theorem scanPhases_nullToNil : ∀ (l : List PhaseItem) (st : PlanScanState),
    scanPhases st (l.map nullToNil) = scanPhases st l := by
  intro l
  induction l with
  | nil => intro st; rfl
  | cons it rest ih =>
    intro st
    simp only [List.map_cons, scanPhases, scanPhase_nullToNil]
    cases scanPhase st it with
    | error e => simp [Bind.bind, Except.bind]
    | ok st2 => simp [Bind.bind, Except.bind, ih st2]

def c10plan : List PhaseItem :=
  [.dict { name := some "Fase 1: Setup", description := true,
           depends_on := some .dnull }]

/-- C10: `validate_plan` treats a phase whose `depends_on` key is present
but null (falsy) exactly as an empty dependency list — replacing every
falsy `depends_on` by `[]` never changes the validator's verdict — and a
concrete plan whose only phase carries a null `depends_on` validates. -/
theorem C10_null_depends_on :
    (∀ l : List PhaseItem,
      validatePlan { phases := some (.list (l.map nullToNil)) } =
        validatePlan { phases := some (.list l) }) ∧
    (∃ p : PyPhase, c10plan = [.dict p] ∧ p.depends_on = some DepsVal.dnull) ∧
    validatePlan { phases := some (.list c10plan) } = .ok () := by
  refine ⟨?_, ⟨_, rfl, rfl⟩, by decide⟩
  intro l
  simp only [validatePlan]
  by_cases hl : l = []
  · subst hl; rfl
  · rw [if_neg (by simpa using hl), if_neg hl, scanPhases_nullToNil]

/-! ### C8 -/

def c8st : AgentState :=
  set_project_root (set_task_workspace {} ["root", "tasks", "t1"]) ["etc", "elsewhere"]

/-- C8 counterexample: after fixing the task workspace, `set_project_root`
pointed at a directory outside it succeeds: both `project_root` and
`current_workdir` end up outside `task_workspace` and nothing is
rejected, refuting the claimed containment invariant. -/
theorem C8_counterexample :
    c8st.task_workspace = some ["root", "tasks", "t1"] ∧
    c8st.project_root = some ["etc", "elsewhere"] ∧
    c8st.current_workdir = some ["etc", "elsewhere"] ∧
    insideB ["root", "tasks", "t1"] ["etc", "elsewhere"] = false := by
  decide

/-- C8 (amended): the setters resolve their argument and assign it
unconditionally — `set_current_workdir` and `set_project_root` perform no
containment check against `task_workspace`, leave `task_workspace`
untouched, and `set_project_root` also repoints `current_workdir`. -/
theorem C8_setters_unchecked :
    ∀ (s : AgentState) (path : List String),
      (set_current_workdir s path).current_workdir = some (resolveSegs path) ∧
      (set_current_workdir s path).task_workspace = s.task_workspace ∧
      (set_current_workdir s path).project_root = s.project_root ∧
      (set_project_root s path).project_root = some (resolveSegs path) ∧
      (set_project_root s path).current_workdir = some (resolveSegs path) ∧
      (set_project_root s path).task_workspace = s.task_workspace :=
  fun _ _ => ⟨rfl, rfl, rfl, rfl, rfl, rfl⟩

/-! ### C9 -/

theorem foldl_logNested (nested : List ActRec) : ∀ st : AgentState,
    (nested.foldl (fun st2 na => logNested st2 na true) st).phase_action_count =
        st.phase_action_count ∧
    (nested.foldl (fun st2 na => logNested st2 na true) st).action_history.length =
        st.action_history.length + nested.length := by
  induction nested with
  | nil => intro st; simp
  | cons a t ih =>
    intro st
    simp only [List.foldl_cons]
    refine ⟨(ih _).1, ?_⟩
    rw [(ih _).2]
    simp [logNested]
    omega

/-- C9: `register_action` always appends one `{phase, action, result}`
record to `action_history` and bumps `phase_action_count`; in the
executor (modelled from the spec, its code being absent from `src/`), a
top-level `llm_call` fanning out into N nested actions grows
`action_history` by N+1 entries while `phase_action_count` rises by
exactly 1. -/
theorem C9_nested_actions :
    (∀ (s : AgentState) (a : ActRec) (r : Bool),
      (register_action s a r).action_history =
          s.action_history ++ [⟨s.current_phase, a, r⟩] ∧
      (register_action s a r).phase_action_count = s.phase_action_count + 1) ∧
    (∀ (oracle : String → List ActRec) (s : AgentState) (a : ActRec),
      a.type = some "llm_call" →
      (execute_actions oracle s [a]).phase_action_count = s.phase_action_count + 1 ∧
      (execute_actions oracle s [a]).action_history.length =
        s.action_history.length + 1 + (oracle (a.prompt.getD "")).length) := by
  refine ⟨fun s a r => ⟨rfl, rfl⟩, ?_⟩
  intro oracle s a ht
  simp only [execute_actions, List.foldl_cons, List.foldl_nil, ht]
  constructor
  · rw [(foldl_logNested _ _).1]
    rfl
  · rw [(foldl_logNested _ _).2]
    simp [register_action]

def orc3 : String → List ActRec := fun _ =>
  [{ type := some "file_write" }, { type := some "file_write" },
   { type := some "command" }]

def a9 : ActRec := { type := some "llm_call", prompt := some "tres acciones" }

theorem C9_witness :
    (execute_actions orc3 {} [a9]).phase_action_count =
        ({} : AgentState).phase_action_count + 1 ∧
    (execute_actions orc3 {} [a9]).action_history.length =
      ({} : AgentState).action_history.length + 1 + (orc3 (a9.prompt.getD "")).length :=
  C9_nested_actions.2 orc3 {} a9 rfl

/-! ### C5, C6, C7: lifting an invalid action to a `validate_actions` error -/

theorem not_ok_iff_err {x : Except String Unit} :
    x ≠ .ok () ↔ ∃ e, x = .error e := by
  cases x with
  | error e => simp
  | ok v => cases v; simp

theorem validateActionsList_err {e : String} :
    ∀ (l : List PyItem) (it : PyItem), it ∈ l → validateActionItem it = .error e →
      ∃ e2, validateActionsList l = .error e2 := by
  intro l
  induction l with
  | nil => intro it h; cases h
  | cons x rest ih =>
    intro it hmem herr
    rcases List.mem_cons.mp hmem with rfl | h2
    · exact ⟨e, by rw [validateActionsList, herr]; rfl⟩
    · cases hx : validateActionItem x with
      | error ex => exact ⟨ex, by rw [validateActionsList, hx]; rfl⟩
      | ok u =>
        rcases ih it h2 herr with ⟨e2, he2⟩
        refine ⟨e2, ?_⟩
        rw [validateActionsList, hx]
        cases u
        simpa [Bind.bind, Except.bind] using he2

theorem validateActions_err {l : List PyItem} {it : PyItem} {e : String}
    (hmem : it ∈ l) (herr : validateActionItem it = .error e) :
    ∃ e2, validateActions { actions := some (.list l) } = .error e2 := by
  rcases validateActionsList_err l it hmem herr with ⟨e2, he2⟩
  refine ⟨e2, ?_⟩
  have hne : l ≠ [] := by rintro rfl; cases hmem
  simp [validateActions, hne, he2]

theorem validatePath_err_of_bad {p : String}
    (h : "..".data ∈ splitOnChar '/' (replBackslash p).data ∨
        absShape (replBackslash p) = true) :
    ∃ e, validatePath (.str p) = .error e := by
  rw [← not_ok_iff_err]
  intro hok
  simp only [validatePath] at hok
  split_ifs at hok with h1 h2 h3 h4
  rcases h with hdd | habs
  · exact h3 hdd
  · exact h2 habs

/-- C5: any `file_write`/`file_modify` action whose path has a `..`
segment (after backslash normalization) or an absolute shape (leading
slash or a drive prefix) makes `validate_actions` raise. -/
theorem C5_path_traversal_rejected :
    ∀ (l : List PyItem) (a : PyAction) (t p : String),
      PyItem.dict a ∈ l →
      a.type = some (.str t) →
      t = "file_write" ∨ t = "file_modify" →
      a.path = some (.str p) →
      ("..".data ∈ splitOnChar '/' (replBackslash p).data ∨
        absShape (replBackslash p) = true) →
      ∃ e, validateActions { actions := some (.list l) } = .error e := by
  intro l a t p hmem htype ht hpath hbad
  rcases validatePath_err_of_bad hbad with ⟨ep, hep⟩
  have hitem : ∃ e, validateActionItem (.dict a) = .error e := by
    rw [← not_ok_iff_err]
    intro hok
    rcases ht with rfl | rfl <;>
      simp [validateActionItem, htype, hpath, hep, ALLOWED_ACTION_TYPES,
        Bind.bind, Except.bind, Pure.pure, Except.pure] at hok
  rcases hitem with ⟨e, he⟩
  exact validateActions_err hmem he

def c5item : PyItem :=
  .dict { type := some (.str "file_write"), path := some (.str "../etc/passwd"),
          content := some (.str "x") }

theorem C5_witness :
    ∃ e, validateActions { actions := some (.list [c5item]) } = .error e :=
  C5_path_traversal_rejected [c5item]
    { type := some (.str "file_write"), path := some (.str "../etc/passwd"),
      content := some (.str "x") }
    "file_write" "../etc/passwd" (by simp [c5item]) rfl (Or.inl rfl) rfl (by decide)

/-! ### C6 -/

theorem dangerousB_iff (s : String) :
    dangerousB s = true ↔
      (OccursP patRmRf s.data ∨ OccursP patDdIf s.data ∨ OccursP patMkfs s.data ∨
       OccursP patShutdown s.data ∨ BoundaryOccursP "format".data s.data ∨
       OccursP patDel s.data ∨ OccursP patCurl s.data) := by
  simp only [dangerousB, Bool.or_eq_true, tokSearchB_iff, boundarySearchB_iff,
    BoundaryOccursP, or_assoc]

/-- C6: `_validate_command` screens the lowercased command against the
fixed dangerous patterns: a nonempty command passes iff none of the
seven patterns (recursive delete, raw disk write, mkfs, shutdown, a
word-bounded `format`, Windows force-delete, curl piped to sh) occurs in
its lowercasing; and any command action in a payload whose lowercased
command matches a pattern makes `validate_actions` raise. -/
theorem C6_command_screen :
    (∀ s : String, s ≠ "" →
      (validateCommand (.str s) = .ok () ↔
        ¬ (OccursP patRmRf (pyLower s).data ∨ OccursP patDdIf (pyLower s).data ∨
           OccursP patMkfs (pyLower s).data ∨ OccursP patShutdown (pyLower s).data ∨
           BoundaryOccursP "format".data (pyLower s).data ∨
           OccursP patDel (pyLower s).data ∨ OccursP patCurl (pyLower s).data))) ∧
    (∀ (l : List PyItem) (a : PyAction) (c : String),
      PyItem.dict a ∈ l →
      a.type = some (.str "command") →
      a.command = some (.str c) →
      dangerousB (pyLower c) = true →
      ∃ e, validateActions { actions := some (.list l) } = .error e) := by
  constructor
  · intro s hs
    rw [← dangerousB_iff]
    simp only [validateCommand, if_neg hs]
    by_cases hd : dangerousB (pyLower s) = true
    · simp [hd]
    · simp [hd]
  · intro l a c hmem htype hcmd hdang
    have hcmderr : ∃ e, validateCommand (.str c) = .error e := by
      by_cases hc : c = ""
      · exact ⟨"Accion command sin campo command valido.",
          by simp [validateCommand, hc]⟩
      · exact ⟨"Comando bloqueado por seguridad.",
          by simp [validateCommand, hc, hdang]⟩
    rcases hcmderr with ⟨ec, hec⟩
    have hitem : ∃ e, validateActionItem (.dict a) = .error e := by
      rw [← not_ok_iff_err]
      intro hok
      simp [validateActionItem, htype, hcmd, hec, ALLOWED_ACTION_TYPES,
        Bind.bind, Except.bind] at hok
    rcases hitem with ⟨e, he⟩
    exact validateActions_err hmem he

def c6item : PyItem :=
  .dict { type := some (.str "command"), command := some (.str "rm -rf /tmp/x") }

theorem C6_witness :
    ∃ e, validateActions { actions := some (.list [c6item]) } = .error e :=
  C6_command_screen.2 [c6item]
    { type := some (.str "command"), command := some (.str "rm -rf /tmp/x") }
    "rm -rf /tmp/x" (by simp [c6item]) rfl rfl (by decide)

/-! ### C7 -/

theorem validateFileContent_ok_iff (p c : String) :
    validateFileContent (.str p) (.str c) = .ok () ↔
      ((PLACEHOLDER_HINTS.any fun h => pyIn h (pyLower c)) = false ∧
       pyStrip c ≠ "" ∧
       (extOf p ∈ (["ts", "tsx", "js", "jsx"] : List String) →
         tsBody (pyStrip c) ≠ "" ∧
         CODE_TOKENS.any (fun tk => pyIn tk (pyLower (tsBody (pyStrip c)))) = true) ∧
       (extOf p ∈ (["html", "htm"] : List String) →
         htmlBody (pyStrip c) ≠ "" ∧
         tokSearchB htmlTagToks (htmlBody (pyStrip c)).data = true) ∧
       (extOf p ∈ (["scss", "css"] : List String) →
         tokSearchB cssRuleToks (cssBody (pyStrip c)).data = true)) := by
  simp only [validateFileContent, pvStr, Bind.bind, Except.bind, Pure.pure,
    Except.pure, throw, throwThe, MonadExceptOf.throw]
  split_ifs <;> simp_all

/-- C7: a `file_write`/`file_modify` action whose content matches a
placeholder hint always makes `validate_actions` raise; and a
`file_write`/`file_modify` action with a valid path whose content has no
placeholder hint, is nonempty, and passes its extension family's check
(a code-shaped token in the comment-stripped body for ts/js, a real tag
for html, a brace-delimited rule for css/scss) is always accepted. -/
theorem C7_content_checks :
    (∀ (l : List PyItem) (a : PyAction) (t c : String),
      PyItem.dict a ∈ l →
      a.type = some (.str t) →
      t = "file_write" ∨ t = "file_modify" →
      a.content = some (.str c) →
      (∃ h ∈ PLACEHOLDER_HINTS, pyIn h (pyLower c) = true) →
      ∃ e, validateActions { actions := some (.list l) } = .error e) ∧
    (∀ (a : PyAction) (t p c : String),
      a.type = some (.str t) →
      t = "file_write" ∨ t = "file_modify" →
      a.path = some (.str p) →
      a.content = some (.str c) →
      validatePath (.str p) = .ok () →
      (PLACEHOLDER_HINTS.any fun h => pyIn h (pyLower c)) = false →
      pyStrip c ≠ "" →
      (extOf p ∈ (["ts", "tsx", "js", "jsx"] : List String) →
        tsBody (pyStrip c) ≠ "" ∧
        CODE_TOKENS.any (fun tk => pyIn tk (pyLower (tsBody (pyStrip c)))) = true) →
      (extOf p ∈ (["html", "htm"] : List String) →
        htmlBody (pyStrip c) ≠ "" ∧
        tokSearchB htmlTagToks (htmlBody (pyStrip c)).data = true) →
      (extOf p ∈ (["scss", "css"] : List String) →
        tokSearchB cssRuleToks (cssBody (pyStrip c)).data = true) →
      validateActions { actions := some (.list [PyItem.dict a]) } = .ok ()) := by
  constructor
  · intro l a t c hmem htype ht hcontent hhint
    rcases hhint with ⟨x, hx, hpx⟩
    have hfc : validateFileContent (a.path.getD (.str "")) (.str c) =
        .error "Contenido placeholder detectado." := by
      simp only [validateFileContent]
      rw [if_pos (List.any_eq_true.mpr ⟨x, hx, hpx⟩)]
    have hitem : ∃ e, validateActionItem (.dict a) = .error e := by
      rw [← not_ok_iff_err]
      intro hok
      cases hp : validatePath (a.path.getD (.str "")) with
      | error ep =>
        rcases ht with rfl | rfl <;>
          simp [validateActionItem, htype, hcontent, hp, ALLOWED_ACTION_TYPES,
            Bind.bind, Except.bind, Pure.pure, Except.pure] at hok
      | ok u =>
        cases u
        rcases ht with rfl | rfl <;>
          simp [validateActionItem, htype, hcontent, hp, hfc, ALLOWED_ACTION_TYPES,
            Bind.bind, Except.bind, Pure.pure, Except.pure] at hok
    rcases hitem with ⟨e, he⟩
    exact validateActions_err hmem he
  · intro a t p c htype ht hpath hcontent hvp hhints hstr hts hhtml hcss
    have hfc : validateFileContent (.str p) (.str c) = .ok () :=
      (validateFileContent_ok_iff p c).mpr ⟨hhints, hstr, hts, hhtml, hcss⟩
    rcases ht with rfl | rfl <;>
      simp [validateActions, validateActionsList, validateActionItem, htype,
        hpath, hcontent, hvp, hfc, ALLOWED_ACTION_TYPES,
        Bind.bind, Except.bind, Pure.pure, Except.pure]

def c7a : PyAction :=
  { type := some (.str "file_write"), path := some (.str "src/app/app.ts"),
    content := some (.str "import x from y;") }

def c7bad : PyAction :=
  { type := some (.str "file_write"), path := some (.str "src/app/app.ts"),
    content := some (.str "todo: por implementar") }

theorem C7_witness :
    validateActions { actions := some (.list [PyItem.dict c7a]) } = .ok () ∧
    (∃ e, validateActions { actions := some (.list [PyItem.dict c7bad]) } =
      .error e) :=
  ⟨C7_content_checks.2 c7a "file_write" "src/app/app.ts" "import x from y;"
      rfl (Or.inl rfl) rfl rfl (by decide) (by decide) (by decide) (by decide)
      (by decide) (by decide),
   C7_content_checks.1 [PyItem.dict c7bad] c7bad "file_write"
      "todo: por implementar" (by simp) rfl (Or.inl rfl) rfl
      ⟨"todo:", by decide, by decide⟩⟩

/-! ### C2 -/

theorem dedup_len_one_iff {α : Type} [DecidableEq α] (l : List α) (hne : l ≠ []) :
    l.dedup.length = 1 ↔ ∃ a, ∀ x ∈ l, x = a := by
  constructor
  · intro h
    rcases List.length_eq_one.mp h with ⟨a, ha⟩
    refine ⟨a, fun x hx => ?_⟩
    have hxd : x ∈ l.dedup := List.mem_dedup.mpr hx
    rw [ha] at hxd
    simpa using hxd
  · rintro ⟨a, ha⟩
    have h2 : ∀ x ∈ l.dedup, x = a := fun x hx => ha x (List.mem_dedup.mp hx)
    have hnd := l.nodup_dedup
    cases hd : l.dedup with
    | nil =>
      rcases List.exists_mem_of_ne_nil l hne with ⟨x, hx⟩
      have hxd := List.mem_dedup.mpr hx
      rw [hd] at hxd
      cases hxd
    | cons b tl =>
      cases tl with
      | nil => rfl
      | cons c tl2 =>
        have hb : b = a := h2 b (by rw [hd]; simp)
        have hc : c = a := h2 c (by rw [hd]; simp)
        rw [hd] at hnd
        have hbm : b ∉ c :: tl2 := (List.nodup_cons.mp hnd).1
        rw [hb, hc] at hbm
        exact absurd (List.mem_cons_self a tl2) hbm

theorem headD_all {α : Type} (l : List α) (d a : α) (hne : l ≠ [])
    (h : ∀ x ∈ l, x = a) : l.headD d = a := by
  cases l with
  | nil => exact absurd rfl hne
  | cons b tl =>
    simp only [List.headD_cons]
    exact h b (by simp)

theorem lastFive_ne_nil {s : AgentState}
    (h : MAX_SAME_ACTION_STREAK ≤ s.action_history.length) : lastFive s ≠ [] := by
  have hlen : (lastFive s).length = 5 := by
    simp only [lastFive, List.length_drop, MAX_SAME_ACTION_STREAK]
    simp only [MAX_SAME_ACTION_STREAK] at h
    omega
  intro hnil
  rw [hnil] at hlen
  cases hlen

theorem phaseRepExceeded_iff (s : AgentState) :
    phaseRepExceeded s = true ↔
      ∃ ph, s.current_phase = some ph ∧ ph ≠ "" ∧
        counterGet s.phase_repetition_count ph > MAX_PHASE_REPETITIONS := by
  unfold phaseRepExceeded
  cases hcp : s.current_phase with
  | none => simp
  | some ph =>
    simp only [Bool.and_eq_true, decide_eq_true_eq]
    constructor
    · rintro ⟨hne, hgt⟩
      exact ⟨ph, rfl, by simpa using hne, hgt⟩
    · rintro ⟨ph2, heq, hne, hgt⟩
      injection heq with h
      subst h
      exact ⟨by simpa using hne, hgt⟩

/-- The amended raise condition: the three ceilings, or a streak of five
same-typed actions which — when the type is a file write/modify — all
target the same **non-empty** normalized path. -/
def LoopViolation (s : AgentState) : Prop :=
  s.iteration_count > MAX_GLOBAL_ITERATIONS ∨
  s.phase_action_count > MAX_ACTIONS_PER_PHASE ∨
  (∃ ph, s.current_phase = some ph ∧ ph ≠ "" ∧
    counterGet s.phase_repetition_count ph > MAX_PHASE_REPETITIONS) ∨
  (s.action_history.length ≥ MAX_SAME_ACTION_STREAK ∧
    ∃ t, (∀ e ∈ lastFive s, e.action.type = t) ∧
      ((t = some "file_write" ∨ t = some "file_modify") →
        ∃ p, p ≠ "" ∧ ∀ e ∈ lastFive s, pathNorm e.action.path = p))

/-- C2 (amended): `LoopGuard.check` raises iff a ceiling is exceeded
(25 iterations / 10 actions per phase / 3 repetitions of a non-empty
current phase) or the last five history entries share one action type
and, when that type is `file_write`/`file_modify`, all five target the
same non-empty stripped-lowercased path (five writes to an empty or
missing path raise nothing). -/
theorem C2_loop_guard_iff (s : AgentState) :
    (∃ e, loopGuardCheck s = .error e) ↔ LoopViolation s := by
  rw [← not_ok_iff_err]
  by_cases h1 : s.iteration_count > MAX_GLOBAL_ITERATIONS
  · simp [loopGuardCheck, LoopViolation, h1]
  by_cases h2 : s.phase_action_count > MAX_ACTIONS_PER_PHASE
  · simp [loopGuardCheck, LoopViolation, h1, h2]
  by_cases h3 : phaseRepExceeded s = true
  · have h3' := (phaseRepExceeded_iff s).mp h3
    simp [loopGuardCheck, LoopViolation, h1, h2, h3, h3']
  have h3' : ¬ ∃ ph, s.current_phase = some ph ∧ ph ≠ "" ∧
      counterGet s.phase_repetition_count ph > MAX_PHASE_REPETITIONS := by
    rw [← phaseRepExceeded_iff]
    simpa using h3
  by_cases h4 : s.action_history.length ≥ MAX_SAME_ACTION_STREAK
  case neg =>
    simp [loopGuardCheck, LoopViolation, h1, h2, h3, h3', h4]
  case pos =>
    have hne : lastFive s ≠ [] := lastFive_ne_nil h4
    have hmapne : (lastFive s).map (fun e => e.action.type) ≠ [] := by
      simpa using hne
    by_cases h5 : ((lastFive s).map (fun e => e.action.type)).dedup.length = 1
    case neg =>
      simp only [loopGuardCheck, LoopViolation, if_neg h1, if_neg h2, if_neg h3,
        if_pos h4, if_neg h5]
      constructor
      · intro hcontra; exact absurd rfl hcontra
      · rintro (hv | hv | hv | ⟨-, t, hall, -⟩)
        · exact absurd hv h1
        · exact absurd hv h2
        · exact absurd hv h3'
        · refine absurd ((dedup_len_one_iff _ hmapne).mpr ⟨t, ?_⟩) h5
          intro x hx
          rcases List.mem_map.mp hx with ⟨e, he, rfl⟩
          exact hall e he
    case pos =>
      obtain ⟨t, htall⟩ := (dedup_len_one_iff _ hmapne).mp h5
      have hall : ∀ e ∈ lastFive s, e.action.type = t :=
        fun e he => htall _ (List.mem_map_of_mem _ he)
      have hhead : ((lastFive s).map (fun e => e.action.type)).headD none = t :=
        headD_all _ _ _ hmapne htall
      by_cases h6 : t = some "file_write" ∨ t = some "file_modify"
      case pos =>
        by_cases h7 :
            ((lastFive s).map (fun e => pathNorm e.action.path)).dedup.length = 1 ∧
            ((lastFive s).map (fun e => pathNorm e.action.path)).headD "" ≠ ""
        case pos =>
          have hpne : (lastFive s).map (fun e => pathNorm e.action.path) ≠ [] := by
            simpa using hne
          obtain ⟨p, hpall⟩ := (dedup_len_one_iff _ hpne).mp h7.1
          have hphead := headD_all _ "" _ hpne hpall
          simp only [loopGuardCheck, LoopViolation, if_neg h1, if_neg h2,
            if_neg h3, if_pos h4, if_pos h5, hhead, if_pos h6, if_pos h7]
          constructor
          · intro _
            refine Or.inr (Or.inr (Or.inr ⟨h4, t, hall, fun _ => ⟨p, ?_, ?_⟩⟩))
            · rw [← hphead]; exact h7.2
            · intro e he
              exact hpall _ (List.mem_map_of_mem _ he)
          · intro _ hcontra
            cases hcontra
        case neg =>
          simp only [loopGuardCheck, LoopViolation, if_neg h1, if_neg h2,
            if_neg h3, if_pos h4, if_pos h5, hhead, if_pos h6, if_neg h7]
          constructor
          · intro hcontra; exact absurd rfl hcontra
          · rintro (hv | hv | hv | ⟨-, t2, hall2, himp⟩)
            · exact absurd hv h1
            · exact absurd hv h2
            · exact absurd hv h3'
            · obtain ⟨e0, he0⟩ := List.exists_mem_of_ne_nil _ hne
              have ht2 : t2 = t := by rw [← hall2 e0 he0, hall e0 he0]
              subst ht2
              rcases himp h6 with ⟨p, hpne2, hpall⟩
              have hA :
                  ((lastFive s).map (fun e => pathNorm e.action.path)).dedup.length
                    = 1 := by
                refine (dedup_len_one_iff _ (by simpa using hne)).mpr ⟨p, ?_⟩
                intro x hx
                rcases List.mem_map.mp hx with ⟨e, he, rfl⟩
                exact hpall e he
              have hB :
                  ((lastFive s).map (fun e => pathNorm e.action.path)).headD ""
                    ≠ "" := by
                have hh : ((lastFive s).map
                    (fun e => pathNorm e.action.path)).headD "" = p := by
                  refine headD_all _ "" _ (by simpa using hne) ?_
                  intro x hx
                  rcases List.mem_map.mp hx with ⟨e, he, rfl⟩
                  exact hpall e he
                rw [hh]
                exact hpne2
              exact absurd ⟨hA, hB⟩ h7
      case neg =>
        simp only [loopGuardCheck, LoopViolation, if_neg h1, if_neg h2,
          if_neg h3, if_pos h4, if_pos h5, hhead, if_neg h6]
        constructor
        · intro _
          exact Or.inr (Or.inr (Or.inr ⟨h4, t, hall, fun hw => absurd hw h6⟩))
        · intro _ hcontra
          cases hcontra

def c2state : AgentState :=
  { action_history :=
      List.replicate 5 ⟨some "f", { type := some "file_write" }, true⟩ }

/-- C2 counterexample: a state whose last five actions are `file_write`
entries with no path — one shared type, all five with the same (empty)
normalized target — and no ceiling exceeded, yet `LoopGuard.check`
raises nothing: the streak rule additionally requires a non-empty
target, refuting the claim's raise condition (d). -/
theorem C2_counterexample :
    c2state.iteration_count ≤ MAX_GLOBAL_ITERATIONS ∧
    c2state.phase_action_count ≤ MAX_ACTIONS_PER_PHASE ∧
    c2state.current_phase = none ∧
    c2state.action_history.length = MAX_SAME_ACTION_STREAK ∧
    (∀ e ∈ lastFive c2state, e.action.type = some "file_write") ∧
    (∀ e ∈ lastFive c2state, pathNorm e.action.path = "") ∧
    loopGuardCheck c2state = .ok () := by
  decide

/-! ### C3 -/

theorem serveFixGo_len (env : Nat → RoundEnv) (m : Nat) :
    ∀ (rem fr : Nat) (lh : String) (hist : List (List String))
      (acc : List (Nat × Bool)),
      ((serveFixGo env m fr rem lh hist acc).consultations).length ≤
        acc.length + (m - fr) := by
  intro rem
  induction rem with
  | zero => intro fr lh hist acc; simp [serveFixGo]
  | succ n ih =>
    intro fr lh hist acc
    simp only [serveFixGo]
    by_cases hc : (has_build_errors (env fr).build_out || !(env fr).ok_build) = true
    · rw [if_pos hc]
      by_cases hfr : fr ≥ m
      · rw [if_pos hfr]; simp
      · rw [if_neg hfr]
        by_cases hresp : (env fr).fix_resp = ""
        · rw [if_pos hresp]
          simp only [List.length_append, List.length_cons, List.length_nil]
          omega
        · rw [if_neg hresp]
          by_cases hsteps : (env fr).fix_steps = 0
          · rw [if_pos hsteps]
            simp only [List.length_append, List.length_cons, List.length_nil]
            omega
          · rw [if_neg hsteps]
            have hrec := ih (fr + 1) (env fr).files_hash
              (hist ++ [extract_error_codes (env fr).build_out])
              (acc ++ [(fr,
                (!(persistentCodes (extract_error_codes (env fr).build_out)
                      hist).isEmpty && decide (0 < fr)) ||
                (!((env fr).files_hash != lh) && decide (0 < fr)))])
            refine le_trans hrec ?_
            simp only [List.length_append, List.length_cons, List.length_nil]
            omega
    · rw [if_neg hc]; simp

theorem serveFixGo_step (env : Nat → RoundEnv) (m fr rem : Nat) (lh : String)
    (hist : List (List String)) (acc : List (Nat × Bool))
    (hc : (has_build_errors (env fr).build_out || !(env fr).ok_build) = true)
    (hfr : fr < m)
    (hresp : (env fr).fix_resp ≠ "")
    (hsteps : (env fr).fix_steps ≠ 0) :
    serveFixGo env m fr (rem + 1) lh hist acc =
      serveFixGo env m (fr + 1) rem (env fr).files_hash
        (hist ++ [extract_error_codes (env fr).build_out])
        (acc ++ [(fr,
          (!(persistentCodes (extract_error_codes (env fr).build_out)
                hist).isEmpty && decide (0 < fr)) ||
          (!((env fr).files_hash != lh) && decide (0 < fr)))]) := by
  conv_lhs => rw [serveFixGo]
  rw [if_pos hc, if_neg (by omega : ¬ fr ≥ m), if_neg hresp, if_neg hsteps]

theorem serveFixGo_exhaust (env : Nat → RoundEnv) (m fr rem : Nat) (lh : String)
    (hist : List (List String)) (acc : List (Nat × Bool))
    (hc : (has_build_errors (env fr).build_out || !(env fr).ok_build) = true)
    (hfr : fr ≥ m) :
    serveFixGo env m fr (rem + 1) lh hist acc = ⟨acc, false, true⟩ := by
  conv_lhs => rw [serveFixGo]
  rw [if_pos hc, if_pos hfr]

/-- C3 (amended): `_serve_and_fix` performs at most 3 corrective AI
consultations (its loop runs `range(max_fix_rounds + 1)` rounds with
`max_fix_rounds = 3`, consulting only below the ceiling); and when every
round fails with byte-identical output carrying at least one error code,
the loop does **not** abort on the repeated signature: it runs all 3
corrective rounds — consulting with the normal prompt at round 0 and the
strategy-change prompt at rounds 1 and 2 (persistent codes force a
strategy change, not a stall abort) — and only then reports the attempts
exhausted. -/
theorem C3_autofix_loop :
    (∀ env : Nat → RoundEnv, (serve_and_fix env).consultations.length ≤ 3) ∧
    (∀ (env : Nat → RoundEnv) (B : String),
      (∀ r, r < 4 → (env r).build_out = B) →
      has_build_errors B = true →
      extract_error_codes B ≠ [] →
      (∀ r, r < 3 → (env r).fix_resp ≠ "") →
      (∀ r, r < 3 → (env r).fix_steps ≠ 0) →
      serve_and_fix env =
        { consultations := [(0, false), (1, true), (2, true)],
          success := false, exhausted := true }) := by
  constructor
  · intro env
    simpa [serve_and_fix] using serveFixGo_len env 3 4 0 "" [] []
  · intro env B hB herr hcodes hresp hsteps
    have hc : ∀ r, r < 4 →
        (has_build_errors (env r).build_out || !(env r).ok_build) = true := by
      intro r hr
      rw [hB r hr, herr]
      rfl
    have hfil : (extract_error_codes B).filter
        (fun c => c ∈ extract_error_codes B) = extract_error_codes B := by
      refine List.filter_eq_self.mpr ?_
      intro a ha
      simpa using ha
    have hie : (extract_error_codes B).isEmpty = false := by
      rcases hx : extract_error_codes B with _ | ⟨a, t⟩
      · exact absurd hx hcodes
      · rfl
    show serveFixGo env 3 0 4 "" [] [] = _
    rw [serveFixGo_step env 3 0 3 "" [] [] (hc 0 (by omega)) (by omega)
        (hresp 0 (by omega)) (hsteps 0 (by omega)),
      serveFixGo_step env 3 1 2 _ _ _ (hc 1 (by omega)) (by omega)
        (hresp 1 (by omega)) (hsteps 1 (by omega)),
      serveFixGo_step env 3 2 1 _ _ _ (hc 2 (by omega)) (by omega)
        (hresp 2 (by omega)) (hsteps 2 (by omega)),
      serveFixGo_exhaust env 3 3 0 _ _ _ (hc 3 (by omega)) (by omega)]
    simp [hB 0 (by omega), hB 1 (by omega), hB 2 (by omega),
      persistentCodes, hfil, hie]

def c3env : Nat → RoundEnv := fun _ =>
  { ok_build := false, build_out := "error TS2304: x", files_hash := "h1",
    fix_resp := "fix", fix_steps := 1 }

/-- C3 counterexample: a build that fails byte-identically every round
(same output, same error code TS2304) does **not** make `_serve_and_fix`
stop after one autofix attempt: it performs three corrective
consultations (switching to the strategy-change prompt from round 1) and
exhausts its rounds, refuting the claimed immediate stall abort. -/
theorem C3_counterexample :
    (c3env 1).build_out = (c3env 0).build_out ∧
    (c3env 2).build_out = (c3env 0).build_out ∧
    has_build_errors ((c3env 0).build_out) = true ∧
    (serve_and_fix c3env).consultations.length = 3 ∧
    serve_and_fix c3env =
      { consultations := [(0, false), (1, true), (2, true)],
        success := false, exhausted := true } :=
  ⟨rfl, rfl, by decide, by decide, by decide⟩

theorem C3_witness :
    serve_and_fix c3env =
      { consultations := [(0, false), (1, true), (2, true)],
        success := false, exhausted := true } :=
  C3_autofix_loop.2 c3env "error TS2304: x" (fun r _ => rfl) (by decide)
    (by decide) (fun r _ => by show ("fix" : String) ≠ ""; decide)
    (fun r _ => by show (1 : Nat) ≠ 0; decide)

/-! ### C4 -/

theorem ask_json_go_ok {J : Type} (oracle : Nat → String → String)
    (parse : String → Except String J) (n attempt : Nat) (sp le : String)
    (v : J) (h : extract_json parse (oracle attempt sp) = .ok v) :
    ask_json_go oracle parse (n + 1) attempt sp le = .ok v := by
  show (match extract_json parse (oracle attempt sp) with
    | .ok v => (.ok v : Except String J)
    | .error e => ask_json_go oracle parse n (attempt + 1) (retryPrompt e) e) = _
  rw [h]

theorem ask_json_go_err {J : Type} (oracle : Nat → String → String)
    (parse : String → Except String J) (n attempt : Nat) (sp le e : String)
    (h : extract_json parse (oracle attempt sp) = .error e) :
    ask_json_go oracle parse (n + 1) attempt sp le =
      ask_json_go oracle parse n (attempt + 1) (retryPrompt e) e := by
  show (match extract_json parse (oracle attempt sp) with
    | .ok v => (.ok v : Except String J)
    | .error e => ask_json_go oracle parse n (attempt + 1) (retryPrompt e) e) = _
  rw [h]

/-- C4: `_extract_json` tries three escalating total strategies — parse
as-is, parse the outermost brace-delimited slice, parse that slice after
re-escaping unescaped quotes inside `"content"` values — succeeding iff
one of them parses (earlier strategies preferred); `_ask_json` re-issues
the prompt with the parse error appended on failure, for at most
`MAX_RETRIES = 3` attempts, returns a success obtained within those 3
attempts, and raises `PlannerError` once all 3 are exhausted — no
unbounded retry. -/
theorem C4_planner_bounded_retries :
    (∀ (J : Type) (parse : String → Except String J) (raw : String) (v : J),
      extract_json parse raw = .ok v ↔
        (parse (pyStrip raw) = .ok v ∨
         ((∃ e1, parse (pyStrip raw) = .error e1) ∧
          ∃ cand, extract_braced_json (pyStrip raw).data = .ok cand ∧
            (parse ⟨cand⟩ = .ok v ∨
             ((∃ e2, parse ⟨cand⟩ = .error e2) ∧
              parse (repair_unescaped_content_quotes ⟨cand⟩) = .ok v))))) ∧
    (∀ (J : Type) (oracle : Nat → String → String)
       (parse : String → Except String J) (prompt : String),
      (∀ k, k < MAX_RETRIES → ∀ p, ∃ e, extract_json parse (oracle k p) = .error e) →
      ∃ le, ask_json oracle parse prompt =
        .error ("No se pudo obtener JSON valido del LLM tras 3 intentos: " ++ le)) ∧
    (∀ (J : Type) (oracle : Nat → String → String)
       (parse : String → Except String J) (prompt : String) (v : J),
      ask_json oracle parse prompt = .ok v →
      ∃ k, k < MAX_RETRIES ∧ ∃ p, extract_json parse (oracle k p) = .ok v) := by
  refine ⟨?_, ?_, ?_⟩
  · intro J parse raw v
    unfold extract_json
    cases h0 : parse (pyStrip raw) with
    | ok w => simp [h0]
    | error e0 =>
      cases hb : extract_braced_json (pyStrip raw).data with
      | error eb => simp [h0, hb]
      | ok cand =>
        cases h1 : parse ⟨cand⟩ with
        | ok w => simp [h0, hb, h1]
        | error e1 => simp [h0, hb, h1]
  · intro J oracle parse prompt hfail
    rcases hfail 0 (by decide) (strictPrompt0 prompt) with ⟨e0, h0⟩
    rcases hfail 1 (by decide) (retryPrompt e0) with ⟨e1, h1⟩
    rcases hfail 2 (by decide) (retryPrompt e1) with ⟨e2, h2⟩
    refine ⟨e2, ?_⟩
    show ask_json_go oracle parse (2 + 1) 0 (strictPrompt0 prompt) "" = _
    rw [ask_json_go_err oracle parse 2 0 _ _ e0 h0]
    show ask_json_go oracle parse (1 + 1) 1 (retryPrompt e0) e0 = _
    rw [ask_json_go_err oracle parse 1 1 _ _ e1 h1]
    show ask_json_go oracle parse (0 + 1) 2 (retryPrompt e1) e1 = _
    rw [ask_json_go_err oracle parse 0 2 _ _ e2 h2]
    rfl
  · intro J oracle parse prompt v hok
    have h3 : ask_json_go oracle parse (2 + 1) 0 (strictPrompt0 prompt) "" =
        .ok v := hok
    cases h0 : extract_json parse (oracle 0 (strictPrompt0 prompt)) with
    | ok w =>
      rw [ask_json_go_ok oracle parse 2 0 _ _ w h0] at h3
      injection h3 with hw
      subst hw
      exact ⟨0, by decide, strictPrompt0 prompt, h0⟩
    | error e0 =>
      rw [ask_json_go_err oracle parse 2 0 _ _ e0 h0] at h3
      have h3b : ask_json_go oracle parse (1 + 1) 1 (retryPrompt e0) e0 =
          .ok v := h3
      cases h1 : extract_json parse (oracle 1 (retryPrompt e0)) with
      | ok w =>
        rw [ask_json_go_ok oracle parse 1 1 _ _ w h1] at h3b
        injection h3b with hw
        subst hw
        exact ⟨1, by decide, retryPrompt e0, h1⟩
      | error e1 =>
        rw [ask_json_go_err oracle parse 1 1 _ _ e1 h1] at h3b
        have h3c : ask_json_go oracle parse (0 + 1) 2 (retryPrompt e1) e1 =
            .ok v := h3b
        cases h2 : extract_json parse (oracle 2 (retryPrompt e1)) with
        | ok w =>
          rw [ask_json_go_ok oracle parse 0 2 _ _ w h2] at h3c
          injection h3c with hw
          subst hw
          exact ⟨2, by decide, retryPrompt e1, h2⟩
        | error e2 =>
          rw [ask_json_go_err oracle parse 0 2 _ _ e2 h2] at h3c
          cases h3c

theorem C4_witness :
    ∃ le, ask_json (fun _ _ => "sin json aqui")
        (fun _ => (.error "bad" : Except String Unit)) "p" =
      .error ("No se pudo obtener JSON valido del LLM tras 3 intentos: " ++ le) :=
  C4_planner_bounded_retries.2.1 Unit (fun _ _ => "sin json aqui")
    (fun _ => .error "bad") "p"
    (fun _ _ _ => ⟨"No JSON object found", rfl⟩)

end Sonny
